import Mathlib

/-!
A verification development for the `koa-files` static file middleware.

The definitions below are shallow embeddings of the TypeScript sources:

* `src/utils/http.ts` — conditional-request evaluation (`isConditionalGET`,
  `isPreconditionFailure`, `isRangeFresh`, `parseTokens`, `isETagMatching`)
  and range negotiation (`parseRanges`), in the variant whose `Range` record
  is `{ offset, length, prefix?, suffix? }`;
* the bundled `range-parser` dependency (`rangeParser`, `combineRanges`);
* `src/Service.ts` — the 400/416 dispatch on the `parseRanges` result;
* `src/utils/stream.ts` — the `FileReadStream` phase state machine
  (`PREFIX → RANGE → SUFFIX`, `readPadding` / `readRange` / `_read`);
* `src/ReadStream.ts` — the `_destroy` / `dispose` / read-callback
  file-descriptor lifecycle (deferred close via the dispose event).

JavaScript strings are modelled as `String`, JavaScript numbers used as
integers are modelled as `Int` (or `Nat` for list indices), `Buffer`s as
`List Nat` of bytes or as `String` with UTF-8 byte length, and `Date.parse`
is abstracted as a function `String → Option Int` (`none` models `NaN`).
Koa's `request.get` / `response.get` return `""` for an absent header, so
headers are plain `String` fields with `""` meaning "absent".
-/

set_option autoImplicit false

namespace KoaFiles

/-- The request headers read by the middleware (koa `request.get`,
`""` when the header is absent). -/
structure Request where
  ifMatch : String := ""
  ifNoneMatch : String := ""
  ifModifiedSince : String := ""
  ifUnmodifiedSince : String := ""
  ifRange : String := ""
  range : String := ""
  deriving Repr, DecidableEq

/-- The response state touched by the middleware: headers already set
(`ETag`, `Last-Modified`, `Accept-Ranges`, `Content-Type`, `Content-Range`),
the status code and the `Content-Length` (`none` before it is assigned). -/
structure Response where
  etag : String := ""
  lastModified : String := ""
  acceptRanges : String := ""
  contentType : String := ""
  contentRange : String := ""
  status : Nat := 200
  contentLength : Option Int := none
  deriving Repr, DecidableEq

/-- Trim leading and trailing whitespace of a character list (JavaScript
`String.prototype.trim` restricted to the ASCII whitespace occurring in
HTTP header values). -/
def trimAsciiChars (l : List Char) : List Char :=
  ((l.dropWhile Char.isWhitespace).reverse.dropWhile Char.isWhitespace).reverse

/-- Split a character list on `','`, keeping empty pieces (JavaScript
`String.prototype.split(',')`). -/
def splitOnCommaChars : List Char → List (List Char)
  | [] => [[]]
  | c :: cs =>
    if c = ',' then
      [] :: splitOnCommaChars cs
    else
      match splitOnCommaChars cs with
      | [] => [[c]]
      | t :: ts => (c :: t) :: ts

/-- `parseTokens` from `src/utils/http.ts`:
`value.trim().split(/\s*,\s*/)`.  Splitting on `','` and trimming each piece
yields exactly the same list: the regex consumes the whitespace adjacent to
each comma, and the outer `trim` removes the leading/trailing whitespace of
the first/last piece. -/
def parseTokens (value : String) : List String :=
  (splitOnCommaChars value.toList).map fun t => (trimAsciiChars t).asString

/-- `isETagMatching` from `src/utils/http.ts`:
`match === etag || match === `W/${etag}` || `W/${match}` === etag`. -/
def isETagMatching (m : String) (etag : String) : Bool :=
  m == etag || m == "W/" ++ etag || "W/" ++ m == etag

/-- `isConditionalGET` from `src/utils/http.ts`. -/
def isConditionalGET (request : Request) : Bool :=
  request.ifMatch != "" || request.ifNoneMatch != "" ||
    request.ifModifiedSince != "" || request.ifUnmodifiedSince != ""

/-- `isPreconditionFailure` from `src/utils/http.ts`.  `parseDate` models
JavaScript `Date.parse` (`none` = `NaN`). -/
def isPreconditionFailure (parseDate : String → Option Int)
    (request : Request) (response : Response) : Bool :=
  let m := request.ifMatch
  if m != "" then
    let etag := response.etag
    etag == "" || (m != "*" && !((parseTokens m).any fun token => isETagMatching token etag))
  else
    match parseDate request.ifUnmodifiedSince with
    | some unmodifiedSinceDate =>
      match parseDate response.lastModified with
      | some lastModifiedDate => decide (lastModifiedDate > unmodifiedSinceDate)
      | none => true
    | none => false

/-- The 412 gate of `Service.respond`: the orchestrator throws 412 exactly
when the request is a conditional GET whose precondition failed. -/
def respondsWith412 (parseDate : String → Option Int)
    (request : Request) (response : Response) : Bool :=
  isConditionalGET request && isPreconditionFailure parseDate request response

/-- `isRangeFresh` from `src/utils/http.ts`: no `If-Range` header is always
fresh; an `If-Range` that parses as a date is fresh iff `Last-Modified`
parses and is exactly equal; otherwise the value is compared as an entity
tag via `isETagMatching`. -/
def isRangeFresh (parseDate : String → Option Int)
    (request : Request) (response : Response) : Bool :=
  let ifRange := request.ifRange
  if ifRange == "" then
    true
  else
    match parseDate ifRange with
    | none =>
      let etag := response.etag
      !(etag == "") && isETagMatching ifRange etag
    | some ifRangeDate =>
      match parseDate response.lastModified with
      | some lastModifiedDate => lastModifiedDate == ifRangeDate
      | none => false

/-! ### The bundled `range-parser` dependency

`parseRanges` delegates the `Range` header syntax to the `range-parser`
npm package (`parseRange(size, range, { combine: true })`).  The package's
`index.js` is embedded below: `parseIntBase10` models `parseInt(s, 10)`
(`none` = `NaN`), `parseRangeItem` models one iteration of its parse loop,
and `combineRanges` models its combine step (two stable sorts around an
in-place merge loop). -/

/-- Split a character list on the character `sep`, keeping empty pieces
(JavaScript `String.prototype.split(sep)`). -/
def splitOnChar (sep : Char) : List Char → List (List Char)
  | [] => [[]]
  | c :: cs =>
    if c = sep then
      [] :: splitOnChar sep cs
    else
      match splitOnChar sep cs with
      | [] => [[c]]
      | t :: ts => (c :: t) :: ts

/-- Longest leading run of decimal digits, as a number; `none` when there is
no leading digit. -/
def parseDigits (l : List Char) : Option Nat :=
  let ds := l.takeWhile Char.isDigit
  if ds.isEmpty then
    none
  else
    some (ds.foldl (fun a c => 10 * a + (c.toNat - '0'.toNat)) 0)

/-- JavaScript `parseInt(s, 10)`: skip leading whitespace, optional sign,
then the longest digit run, ignoring any trailing garbage; `none` = `NaN`. -/
def parseIntBase10 (s : String) : Option Int :=
  match s.toList.dropWhile Char.isWhitespace with
  | '-' :: rest => (parseDigits rest).map fun n => -(n : Int)
  | '+' :: rest => (parseDigits rest).map fun n => (n : Int)
  | rest => (parseDigits rest).map fun n => (n : Int)

/-- One iteration of `range-parser`'s loop over `str.split(',')`: parse
`"<start>-<end>"` (with the `-nnn` and `nnn-` forms), clamp the last byte
position to `size - 1`, and drop invalid or unsatisfiable items
(`continue`). -/
def parseRangeItem (size : Int) (item : List Char) : Option (Int × Int) :=
  let parts := splitOnChar '-' item
  let start0 := (parts.get? 0).bind fun p => parseIntBase10 p.asString
  let end0 := (parts.get? 1).bind fun p => parseIntBase10 p.asString
  let se : Option Int × Option Int :=
    match start0, end0 with
    | none, e => (e.map fun e' => size - e', some (size - 1))
    | some s, none => (some s, some (size - 1))
    | some s, some e => (some s, some e)
  match se.1, se.2.map fun e => if e > size - 1 then size - 1 else e with
  | some s, some e => if s > e || s < 0 then none else some (s, e)
  | _, _ => none

/-- An entry of `range-parser`'s combine step: a range together with the
index it had in the parsed list (`mapWithIndex`).  `stop` is the JS field
`end` (a Lean keyword). -/
structure CombineRange where
  start : Int
  stop : Int
  index : Nat
  deriving Repr, DecidableEq

/-- Insert `a` after every element `b` with `le b a`: folding this over a
list is a stable sort, matching JavaScript's stable `Array.prototype.sort`
with comparator `le`. -/
def insertSorted {α : Type} (le : α → α → Bool) (a : α) : List α → List α
  | [] => [a]
  | b :: bs => if le b a then b :: insertSorted le a bs else a :: b :: bs

/-- Stable sort by repeated insertion (models `Array.prototype.sort` with a
consistent comparator, which is stable). -/
def stableSort {α : Type} (le : α → α → Bool) (l : List α) : List α :=
  l.foldl (fun acc a => insertSorted le a acc) []

/-- The in-place merge loop of `combineRanges`: walking the start-sorted
list, a range overlapping or adjacent to the current one (`start ≤ current.end + 1`)
extends it (keeping the minimum original index), otherwise a new current
range begins. -/
def mergeLoop (current : CombineRange) : List CombineRange → List CombineRange
  | [] => [current]
  | r :: rest =>
    if r.start > current.stop + 1 then
      current :: mergeLoop r rest
    else if r.stop > current.stop then
      mergeLoop { current with stop := r.stop, index := min current.index r.index } rest
    else
      mergeLoop current rest

/-- Entry point of the merge loop: the loop starts with `current` being the
first element of the start-sorted list (an empty list cannot occur in
`range-parser`, which checks `ranges.length < 1` first). -/
def mergeAll : List CombineRange → List CombineRange
  | [] => []
  | r :: rest => mergeLoop r rest

/-- `combineRanges` from `range-parser`: sort by range start (stable),
merge overlapping/adjacent ranges, then restore the original order of the
surviving ranges by sorting on their recorded index. -/
def combineRanges (ranges : List (Int × Int)) : List (Int × Int) :=
  let ordered :=
    stableSort (fun a b => decide (a.start ≤ b.start))
      (ranges.enum.map fun p => ⟨p.2.1, p.2.2, p.1⟩)
  (stableSort (fun a b => decide (a.index ≤ b.index)) (mergeAll ordered)).map fun r =>
    (r.start, r.stop)

/-- The result of `range-parser`: `-2` (malformed header), `-1` (no
satisfiable range), or a list of inclusive `{start, end}` pairs tagged with
the range unit parsed before the `=`. -/
inductive ParsedRanges where
  | malformed
  | unsatisfiable
  | ranges (type : String) (list : List (Int × Int))
  deriving Repr, DecidableEq

/-- `range-parser`'s `rangeParser(size, str, options)` with
`options.combine = combine`. -/
def rangeParser (size : Int) (str : String) (combine : Bool) : ParsedRanges :=
  let cs := str.toList
  match cs.findIdx? (· = '=') with
  | none => .malformed
  | some index =>
    let ty := (cs.take index).asString
    let arr := splitOnChar ',' (cs.drop (index + 1))
    let kept := arr.filterMap fun item => parseRangeItem size item
    if kept.length < 1 then
      .unsatisfiable
    else if combine then
      .ranges ty (combineRanges kept)
    else
      .ranges ty kept

/-! ### `parseRanges` and the `Service.respond` range dispatch -/

/-- The `Range` record of `src/utils/http.ts`:
`{ offset, length, prefix?, suffix? }`.  The padding buffers are modelled
as strings (`prefixPad`/`suffixPad`; `prefix` is a Lean keyword), with
`Buffer.byteLength` = UTF-8 byte size. -/
structure HttpRange where
  offset : Int
  length : Int
  prefixPad : Option String := none
  suffixPad : Option String := none
  deriving Repr, DecidableEq

/-- The `Ranges` type of `src/utils/http.ts`: `Range[] | -1 | -2`. -/
inductive Ranges where
  | malformed
  | unsatisfiable
  | list (ranges : List HttpRange)
  deriving Repr, DecidableEq

/-- `/^bytes$/i.test(value)`: the whole value equals `bytes` up to ASCII
case. -/
def isBytesAcceptRanges (value : String) : Bool :=
  value.toList.map Char.toLower == "bytes".toList

/-- The multi-range loop of `parseRanges`: for each `(index, (start, end))`
entry build the multipart prefix block and accumulate
`Content-Length += (end - start + 1) + Buffer.byteLength(prefix)`, caching
`{ offset: start, length, prefix }`. -/
def buildMultipart (boundary contentType : String) (size : Int) :
    List (Nat × (Int × Int)) → List HttpRange × Int
  | [] => ([], 0)
  | (index, (start, stop)) :: rest =>
    let length := stop - start + 1
    let head := if index > 0 then "\r\n" else ""
    let contentRange :=
      "Content-Range: bytes " ++ toString start ++ "-" ++ toString stop ++ "/" ++ toString size
    let pfx :=
      head ++ "--" ++ boundary ++ "\r\n" ++ "Content-Type: " ++ contentType ++ "\r\n" ++
        contentRange ++ "\r\n\r\n"
    let built := buildMultipart boundary contentType size rest
    ({ offset := start, length := length, prefixPad := some pfx } :: built.1,
      length + (pfx.utf8ByteSize : Int) + built.2)

/-- `ranges[length - 1].suffix = suffix`: attach the closing boundary to the
last entry only. -/
def setLastSuffix (suffix : String) : List HttpRange → List HttpRange
  | [] => []
  | [r] => [{ r with suffixPad := some suffix }]
  | r :: rest => r :: setLastSuffix suffix rest

/-- `parseRanges` from `src/utils/http.ts`.  `boundary` models the random
`generate(32)` boundary token, `size` is `stats.size`.  Returns the ranges
value together with the updated response (status/type/length/Content-Range
mutations). -/
def parseRanges (parseDate : String → Option Int) (boundary : String)
    (request : Request) (response : Response) (size : Int) : Ranges × Response :=
  if isBytesAcceptRanges response.acceptRanges then
    if request.range != "" && isRangeFresh parseDate request response then
      match rangeParser size request.range true with
      | .malformed => (.malformed, response)
      | .unsatisfiable => (.unsatisfiable, response)
      | .ranges ty parsed =>
        if ty == "bytes" then
          let response := { response with status := 206 }
          if parsed.length > 1 then
            let contentType := response.contentType
            let suffix := "\r\n--" ++ boundary ++ "--\r\n"
            let response :=
              { response with
                contentType := "multipart/byteranges; boundary=\"" ++ boundary ++ "\"" }
            let built := buildMultipart boundary contentType size parsed.enum
            let contentLength := built.2 + (suffix.utf8ByteSize : Int)
            (.list (setLastSuffix suffix built.1),
              { response with contentLength := some contentLength })
          else
            match parsed with
            | (start, stop) :: _ =>
              let length := stop - start + 1
              (.list [{ offset := start, length := length }],
                { response with
                  contentLength := some length
                  contentRange :=
                    "bytes " ++ toString start ++ "-" ++ toString stop ++ "/" ++ toString size })
            | [] => (.list [], response)
        else
          (.list [{ offset := 0, length := size }],
            { response with contentLength := some size })
      else
        (.list [{ offset := 0, length := size }],
          { response with contentLength := some size })
    else
      (.list [{ offset := 0, length := size }],
        { response with contentLength := some size })

/-- The multipart part prefix block as the specification states it: a
leading `\r\n` for every part except the first, then
`--<boundary>\r\nContent-Type: <originalType>\r\nContent-Range: bytes
<start>-<end>/<size>\r\n\r\n`.  (Spec-side formula, to be compared with the
prefix built by `buildMultipart`.) -/
def specMultipartPrefix (boundary contentType : String) (size : Int)
    (index : Nat) (se : Int × Int) : String :=
  (if index > 0 then "\r\n" else "") ++ "--" ++ boundary ++ "\r\n" ++
    "Content-Type: " ++ contentType ++ "\r\n" ++
    "Content-Range: bytes " ++ toString se.1 ++ "-" ++ toString se.2 ++ "/" ++ toString size ++
    "\r\n\r\n"

/-- The multipart closing suffix as the specification states it:
`\r\n--<boundary>--\r\n`. -/
def specMultipartSuffix (boundary : String) : String :=
  "\r\n--" ++ boundary ++ "--\r\n"

/-- The outcome of the range segment of `Service.respond`: either
`context.throw(status)` or attaching the stream body for the ranges. -/
inductive RespondOutcome where
  | throwStatus (status : Nat) (response : Response)
  | body (ranges : List HttpRange) (response : Response)
  deriving Repr, DecidableEq

/-- The dispatch on the `parseRanges` result in `Service.respond`:
`-1` sets `Content-Range: bytes */<size>` and throws 416, `-2` throws 400,
a range list becomes the response body. -/
def respondRanges (ranges : Ranges) (size : Int) (response : Response) : RespondOutcome :=
  match ranges with
  | .unsatisfiable =>
    .throwStatus 416 { response with contentRange := "bytes */" ++ toString size }
  | .malformed => .throwStatus 400 response
  | .list l => .body l response

/-! ### The `FileReadStream` phase state machine (`src/utils/stream.ts`)

The stream walks an ordered range list with a cursor
`(currentRangeIndex, readState, bytesRead)`, phases
`PREFIX → RANGE → SUFFIX → (next range's PREFIX | end-of-stream)`.
One `_read(size)` pull is modelled synchronously: the `fs.read` completion
callback is run inline (`fsRead` gives positioned-read semantics over the
file bytes), so the `reading` re-entrancy flag is always false between
pulls and is not modelled.  Pushed chunks are instrumented with the cursor
at the time of the push (`Chunk.rangeIndex`/`phase`/`start` are ghost data;
`Chunk.bytes` is what the stream actually emits). -/

/-- The `const enum ReadState { PREFIX, RANGE, SUFFIX }` of
`src/utils/stream.ts`. -/
inductive ReadState where
  | PREFIX
  | RANGE
  | SUFFIX
  deriving Repr, DecidableEq

/-- The `Range` record of `src/utils/stream.ts`:
`{ offset, length, prefix?, suffix? }` with the padding buffers as byte
lists (`prefix` is a Lean keyword, hence `prefixPad`/`suffixPad`). -/
structure StreamRange where
  offset : Nat
  length : Nat
  prefixPad : Option (List Nat) := none
  suffixPad : Option (List Nat) := none
  deriving Repr, DecidableEq

/-- One pushed chunk, instrumented with the cursor at push time. -/
structure Chunk where
  rangeIndex : Nat
  phase : ReadState
  start : Nat
  bytes : List Nat
  deriving Repr, DecidableEq

/-- The mutable state of a `FileReadStream` instance: the file bytes behind
the opened descriptor, the constructor's range list, the cursor
(`bytesRead`, `currentRangeIndex`, `readState`), and ghost observations —
the ordered chunk trace, the end-of-stream flag (`push(null)`), and the
number of issued positioned reads. -/
structure StreamState where
  file : List Nat
  ranges : List StreamRange
  bytesRead : Nat := 0
  currentRangeIndex : Nat := 0
  readState : ReadState := .PREFIX
  output : List Chunk := []
  ended : Bool := false
  reads : Nat := 0
  deriving Repr, DecidableEq

/-- `getPadding(range)`: the prefix buffer in `PREFIX` state, the suffix
buffer in `SUFFIX` state, `undefined` otherwise. -/
def getPadding (readState : ReadState) (range : StreamRange) : Option (List Nat) :=
  match readState with
  | .PREFIX => range.prefixPad
  | .SUFFIX => range.suffixPad
  | .RANGE => none

/-- `fs.read(fd, buffer, 0, len, position, cb)`: reads up to `len` bytes at
`position`; at or past end of file it reads 0 bytes. -/
def fsRead (file : List Nat) (len position : Nat) : List Nat :=
  (file.drop position).take len

/-- `this.push(null)`. -/
def pushNull (s : StreamState) : StreamState :=
  { s with ended := true }
/-- Which of the two mutually recursive readers runs next. -/
inductive AuxMode where
  | padding
  | range
  deriving Repr, DecidableEq

/-- The mutually recursive `readPadding` / `readRange` pair of
`src/utils/stream.ts`, merged into one structurally recursive function with
an `AuxMode` tag and a fuel argument bounding the synchronous re-entry
chain.  Each chain step either pushes bytes and stops, or advances the
phase (`PREFIX → RANGE → SUFFIX`) or the range index, so a chain is never
longer than `4 * (#ranges + 1)`, the fuel `readPull` supplies; the
fuel-exhausted branch (unreachable for that fuel) leaves the state
unchanged.

`padding` mode is `readPadding(fd, range, size)`: push up to `size` pending
padding bytes; once the padding is absent or fully emitted, reset
`bytesRead` and transition — `PREFIX → RANGE` chaining into `readRange`,
`SUFFIX →` next range's `PREFIX` chaining into its `readPadding`, or
`push(null)` when no range is left — chaining only when nothing was pushed
in this step.

`range` mode is `readRange(fd, range, size)`: issue a positioned read of
`min(size, range.length - bytesRead)` bytes at `range.offset + bytesRead`;
push the bytes read (if any); when the accumulated count reaches the range
length, reset and move to the `SUFFIX` phase; when the read returned no
bytes, chain into `readPadding`. -/
def streamAux (file : List Nat) (ranges : List StreamRange) (size : Nat) :
    Nat → AuxMode → Nat → ReadState → Nat → List Chunk → Nat → StreamState
  | 0, _, currentRangeIndex, readState, bytesRead0, output, reads =>
    { file := file, ranges := ranges, bytesRead := bytesRead0,
      currentRangeIndex := currentRangeIndex, readState := readState,
      output := output, ended := false, reads := reads }
  | fuel + 1, .padding, currentRangeIndex, readState, bytesRead0, output, reads =>
    match ranges.get? currentRangeIndex with
    | none =>
      -- Unreachable: every caller has just obtained the current range.
      { file := file, ranges := ranges, bytesRead := bytesRead0,
        currentRangeIndex := currentRangeIndex, readState := readState,
        output := output, ended := false, reads := reads }
    | some range =>
      let padding := getPadding readState range
      let hasRangePadding := padding.isSome
      let len := (padding.getD []).length
      let pushNow := hasRangePadding ∧ 0 < len
      let n := if pushNow then min size (len - bytesRead0) else 0
      let output1 :=
        if pushNow then
          output ++ [⟨currentRangeIndex, readState, bytesRead0,
            ((padding.getD []).drop bytesRead0).take n⟩]
        else output
      let bytesRead1 := if pushNow then bytesRead0 + n else bytesRead0
      if ¬hasRangePadding = true ∨ len ≤ bytesRead1 then
        let hasBytesRead := 0 < n
        match readState with
        | .PREFIX =>
          if ¬hasBytesRead then
            streamAux file ranges size fuel .range currentRangeIndex .RANGE 0 output1 reads
          else
            { file := file, ranges := ranges, bytesRead := 0,
              currentRangeIndex := currentRangeIndex, readState := .RANGE,
              output := output1, ended := false, reads := reads }
        | .SUFFIX =>
          if ¬hasBytesRead then
            match ranges.get? (currentRangeIndex + 1) with
            | none =>
              { file := file, ranges := ranges, bytesRead := 0,
                currentRangeIndex := currentRangeIndex + 1, readState := .PREFIX,
                output := output1, ended := true, reads := reads }
            | some _ =>
              streamAux file ranges size fuel .padding (currentRangeIndex + 1) .PREFIX 0
                output1 reads
          else
            { file := file, ranges := ranges, bytesRead := 0,
              currentRangeIndex := currentRangeIndex + 1, readState := .PREFIX,
              output := output1, ended := false, reads := reads }
        | .RANGE =>
          { file := file, ranges := ranges, bytesRead := 0,
            currentRangeIndex := currentRangeIndex, readState := .RANGE,
            output := output1, ended := false, reads := reads }
      else
        { file := file, ranges := ranges, bytesRead := bytesRead1,
          currentRangeIndex := currentRangeIndex, readState := readState,
          output := output1, ended := false, reads := reads }
  | fuel + 1, .range, currentRangeIndex, _, bytesRead0, output, reads =>
    match ranges.get? currentRangeIndex with
    | none =>
      -- Unreachable: every caller has just obtained the current range.
      { file := file, ranges := ranges, bytesRead := bytesRead0,
        currentRangeIndex := currentRangeIndex, readState := .RANGE,
        output := output, ended := false, reads := reads }
    | some range =>
      let position := range.offset + bytesRead0
      let bufLen := min size (range.length - bytesRead0)
      let chunkBytes := fsRead file bufLen position
      let n := chunkBytes.length
      let output1 :=
        if 0 < n then output ++ [⟨currentRangeIndex, .RANGE, bytesRead0, chunkBytes⟩]
        else output
      let bytesRead1 := if 0 < n then bytesRead0 + n else bytesRead0
      let bytesRead2 := if range.length ≤ bytesRead1 then 0 else bytesRead1
      let readState2 := if range.length ≤ bytesRead1 then ReadState.SUFFIX else ReadState.RANGE
      if 0 < n then
        { file := file, ranges := ranges, bytesRead := bytesRead2,
          currentRangeIndex := currentRangeIndex, readState := readState2,
          output := output1, ended := false, reads := reads + 1 }
      else
        -- `!hasBytesRead`: chain into `readPadding` with the state just set
        -- by the `bytesRead >= length` check.
        if range.length ≤ bytesRead1 then
          streamAux file ranges size fuel .padding currentRangeIndex .SUFFIX 0 output1
            (reads + 1)
        else
          streamAux file ranges size fuel .padding currentRangeIndex .RANGE bytesRead1 output1
            (reads + 1)

/-- `_read(size)` from `src/utils/stream.ts`, one pull: with no current
range (or after end-of-stream) push `null`, otherwise dispatch on the
phase.  The completion of the issued read runs inline, and the fuel
`4 * (#ranges + 1)` strictly bounds the synchronous re-entry chain. -/
def readPull (s : StreamState) (size : Nat) : StreamState :=
  if s.ended then s
  else
    match s.ranges.get? s.currentRangeIndex with
    | none => pushNull s
    | some _ =>
      match s.readState with
      | .PREFIX =>
        streamAux s.file s.ranges size (4 * (s.ranges.length + 1)) .padding
          s.currentRangeIndex s.readState s.bytesRead s.output s.reads
      | .SUFFIX =>
        streamAux s.file s.ranges size (4 * (s.ranges.length + 1)) .padding
          s.currentRangeIndex s.readState s.bytesRead s.output s.reads
      | .RANGE =>
        streamAux s.file s.ranges size (4 * (s.ranges.length + 1)) .range
          s.currentRangeIndex s.readState s.bytesRead s.output s.reads

/-- Run a sequence of pulls. -/
def runPulls (s : StreamState) : List Nat → StreamState
  | [] => s
  | size :: sizes => runPulls (readPull s size) sizes

/-- The stream state right after `_construct` succeeded. -/
def initState (file : List Nat) (ranges : List StreamRange) : StreamState :=
  { file := file, ranges := ranges }

/-- All bytes emitted by the stream so far, in emission order. -/
def emittedBytes (s : StreamState) : List Nat :=
  (s.output.map Chunk.bytes).join

/-- Position of a phase in the per-range emission order:
prefix before body before suffix. -/
def phaseOrder : ReadState → Nat
  | .PREFIX => 0
  | .RANGE => 1
  | .SUFFIX => 2

/-- The cursor key of a state: (range index, phase position, bytes consumed
in the phase), ordered lexicographically. -/
def stateKey (s : StreamState) : Nat × Nat × Nat :=
  (s.currentRangeIndex, phaseOrder s.readState, s.bytesRead)

/-- The key of an emitted chunk: the cursor at the time of its push. -/
def chunkKey (c : Chunk) : Nat × Nat × Nat :=
  (c.rangeIndex, phaseOrder c.phase, c.start)

/-- Lexicographic order on cursor keys. -/
def keyLE (a b : Nat × Nat × Nat) : Prop :=
  a.1 < b.1 ∨ (a.1 = b.1 ∧ (a.2.1 < b.2.1 ∨ (a.2.1 = b.2.1 ∧ a.2.2 ≤ b.2.2)))

/-- The legal transitions of the coarse cursor `(rangeIndex, phase)`:
`PREFIX → RANGE → SUFFIX → next range's PREFIX` and nothing else. -/
inductive PhaseStep : Nat × ReadState → Nat × ReadState → Prop where
  | prefixToRange (i : Nat) : PhaseStep (i, .PREFIX) (i, .RANGE)
  | rangeToSuffix (i : Nat) : PhaseStep (i, .RANGE) (i, .SUFFIX)
  | suffixToNext (i : Nat) : PhaseStep (i, .SUFFIX) (i + 1, .PREFIX)

/-- The coarse cursor of a state. -/
def cursor (s : StreamState) : Nat × ReadState :=
  (s.currentRangeIndex, s.readState)

/-- Progress bound of a cursor: the bytes consumed in the current phase do
not exceed the phase's extent (the range length in the `RANGE` phase, the
padding length when the phase's padding is present). -/
def cursorWF (ranges : List StreamRange) (i : Nat) (rs : ReadState) (b : Nat) : Prop :=
  match ranges.get? i with
  | none => True
  | some r =>
    (rs = .RANGE → b ≤ r.length) ∧
    (∀ p, getPadding rs r = some p → b ≤ p.length)

/-- Well-formedness of a stream state: every range lies inside the file
(the spec's creation-time invariant `offset + length ≤ file_size`), and the
cursor's progress counter does not exceed the current phase's extent. -/
def StreamWF (s : StreamState) : Prop :=
  (∀ r ∈ s.ranges, r.offset + r.length ≤ s.file.length) ∧
  cursorWF s.ranges s.currentRangeIndex s.readState s.bytesRead

/-- Ordering of emitted chunks by their cursor keys. -/
def chunkLE (a b : Chunk) : Prop :=
  keyLE (chunkKey a) (chunkKey b)

/-- The emitted trace is sorted by cursor keys and bounded by the current
cursor: prior chunks are never revisited. -/
def TraceInv (s : StreamState) : Prop :=
  List.Pairwise chunkLE s.output ∧
  ∀ c ∈ s.output, keyLE (chunkKey c) (stateKey s)

/-- What one synchronous `readPadding`/`readRange` chain entered at cursor
`(i, rs, b)` with trace `output` guarantees about its result state:
fields preserved, well-formedness and the trace invariant re-established,
the coarse cursor advanced only along legal phase transitions, the entering
trace kept as a prefix, and the cursor key not decreased. -/
def AuxPost (file : List Nat) (ranges : List StreamRange) (i : Nat) (rs : ReadState)
    (b : Nat) (output : List Chunk) (s' : StreamState) : Prop :=
  s'.file = file ∧ s'.ranges = ranges ∧ StreamWF s' ∧ TraceInv s' ∧
  Relation.ReflTransGen PhaseStep (i, rs) (cursor s') ∧
  output <+: s'.output ∧
  keyLE (i, phaseOrder rs, b) (stateKey s')

/-! ### The `ReadStream` teardown lifecycle (`src/ReadStream.ts`)

`_destroy(error, callback)` checks the `reading` flag: while a positioned
read is outstanding it only registers a one-shot dispose listener
(`this.once(DISPOSE_EVENT, ...)`); the read completion callback
(`this.reading = false` first) emits the dispose event when the stream is
destroyed, and only then `dispose` nulls the `fd`, calls `fs.close` and
invokes the completion callback with `error ?? closeError`.  The model is a
labelled transition system over the lifecycle fields; `closeCalls`,
`closedWhileReading` and `callbackCalls` are ghost observations. -/

/-- The lifecycle fields of a `ReadStream` instance, plus ghost
observations: how many times `fs.close` was invoked, whether a close was
ever issued while a read was outstanding, and the arguments of every
`_destroy`-completion callback invocation. -/
structure LifecycleState where
  fd : Option Nat
  reading : Bool
  destroyed : Bool
  pendingDestroy : Option (Option String)
  closeCalls : Nat
  closedWhileReading : Bool
  callbackCalls : List (Option String)
  deriving Repr, DecidableEq

/-- The lifecycle-relevant events: `readFileRange` issuing `fs.read`
(sets `reading`), the read completion callback running (with the read's
error), and Node invoking `_destroy(error, callback)`. -/
inductive DestroyEvent where
  | readStart
  | readComplete (readError : Option String)
  | destroyCall (error : Option String)
  deriving Repr, DecidableEq

/-- `dispose(error, callback)` from `src/ReadStream.ts`: if the `fd` is
still present, clear it, close it (`closeError` is what `fs.close` reports)
and invoke the callback with `error ?? closeError`; otherwise just invoke
the callback. -/
def dispose (closeError : Option String) (error : Option String)
    (s : LifecycleState) : LifecycleState :=
  match s.fd with
  | some _ =>
    { s with
      fd := none,
      closeCalls := s.closeCalls + 1,
      closedWhileReading := s.closedWhileReading || s.reading,
      callbackCalls := s.callbackCalls ++ [error.orElse fun _ => closeError] }
  | none => { s with callbackCalls := s.callbackCalls ++ [error] }

/-- One lifecycle transition.
* `readStart`: `this.reading = true`.
* `readComplete readError`: `this.reading = false`; if the stream is
  destroyed, emit the dispose event, which fires the registered `_destroy`
  listener (`dispose(error ?? disposeError, callback)`); otherwise a read
  error triggers `this.destroy(readError)` (running `_destroy` with no read
  outstanding), and a successful read continues the data path.
* `destroyCall error`: `_destroy(error, callback)` — while `reading`, only
  register the dispose listener; otherwise dispose immediately. -/
def lifecycleStep (closeError : Option String) (s : LifecycleState) :
    DestroyEvent → LifecycleState
  | .readStart => { s with reading := true }
  | .readComplete readError =>
    let s1 := { s with reading := false }
    if s.destroyed then
      match s.pendingDestroy with
      | some error =>
        dispose closeError (error.orElse fun _ => readError)
          { s1 with pendingDestroy := none }
      | none => s1
    else
      match readError with
      | some e => dispose closeError (some e) { s1 with destroyed := true }
      | none => s1
  | .destroyCall error =>
    if s.reading then
      { s with destroyed := true, pendingDestroy := some error }
    else
      dispose closeError error { s with destroyed := true }

/-- Node's contract on the instance: reads are only issued by `_read` on a
live stream with an open descriptor and no read in flight, a completion
callback only runs for an outstanding read, and `_destroy` runs at most
once. -/
def ValidEvent (s : LifecycleState) : DestroyEvent → Prop
  | .readStart => s.reading = false ∧ s.destroyed = false ∧ s.fd.isSome = true
  | .readComplete _ => s.reading = true
  | .destroyCall _ => s.destroyed = false

/-- Run a sequence of lifecycle events. -/
def runLifecycle (closeError : Option String) (s : LifecycleState) :
    List DestroyEvent → LifecycleState
  | [] => s
  | e :: es => runLifecycle closeError (lifecycleStep closeError s e) es

/-- Every event of the trace is valid in the state it fires in. -/
def ValidTrace (closeError : Option String) (s : LifecycleState) :
    List DestroyEvent → Prop
  | [] => True
  | e :: es => ValidEvent s e ∧ ValidTrace closeError (lifecycleStep closeError s e) es

/-- The state of a freshly constructed stream whose `_construct` opened
descriptor `fd`. -/
def initLifecycle (fd : Nat) : LifecycleState :=
  { fd := some fd, reading := false, destroyed := false, pendingDestroy := none,
    closeCalls := 0, closedWhileReading := false, callbackCalls := [] }

/-- The inductive invariant of the teardown lifecycle. -/
def LifecycleInv (s : LifecycleState) : Prop :=
  s.closedWhileReading = false ∧
  (s.fd.isSome = true ↔ s.closeCalls = 0) ∧
  s.callbackCalls.length = s.closeCalls ∧
  (s.pendingDestroy.isSome = true →
    s.destroyed = true ∧ s.reading = true ∧ s.closeCalls = 0) ∧
  (s.destroyed = false →
    s.closeCalls = 0 ∧ s.pendingDestroy = none ∧ s.callbackCalls = []) ∧
  (s.destroyed = true → s.reading = false →
    s.pendingDestroy = none ∧ s.closeCalls = 1) ∧
  (s.destroyed = true → s.reading = true → s.pendingDestroy.isSome = true)

/-- C1: with an `If-Match: *` header and a non-empty current `ETag`,
`isPreconditionFailure` returns `false`, hence the orchestrator's 412 gate
does not fire. -/
theorem ifMatch_star_never_fails (parseDate : String → Option Int)
    (request : Request) (response : Response)
    (hstar : request.ifMatch = "*") (hetag : response.etag ≠ "") :
    isPreconditionFailure parseDate request response = false ∧
      respondsWith412 parseDate request response = false := by
  have h1 : isPreconditionFailure parseDate request response = false := by
    simp only [isPreconditionFailure, hstar]
    simp [hetag]
  exact ⟨h1, by simp [respondsWith412, h1]⟩

/-- Witness for C1 at a concrete request/response. -/
theorem ifMatch_star_never_fails_witness :
    isPreconditionFailure (fun _ => none) { ifMatch := "*" } { etag := "W/\"abc\"" } = false ∧
      respondsWith412 (fun _ => none) { ifMatch := "*" } { etag := "W/\"abc\"" } = false :=
  ifMatch_star_never_fails (fun _ => none) { ifMatch := "*" } { etag := "W/\"abc\"" }
    rfl (by decide)

/-- C2 counterexample: the token `"x"` (no `W/` prefix) DOES match the weak
current ETag `W/"x"` (via the `W/${match} === etag` disjunct), so the
If-Match precondition does NOT fail there — contrary to the claim that the
comparison is strong and the precondition fails. -/
theorem weak_etag_ifMatch_matches_counterexample :
    isETagMatching "\"x\"" "W/\"x\"" = true ∧
      isPreconditionFailure (fun _ => none)
        { ifMatch := "\"x\"" } { etag := "W/\"x\"" } = false := by
  exact ⟨by decide, by decide⟩

/-- C2 (amended): the comparison used by `isPreconditionFailure` is weak —
a token matches the current ETag up to a `W/` prefix added on either side.
Hence whenever the current ETag is `W/` followed by the If-Match token, the
precondition does not fail. -/
theorem ifMatch_weak_comparison (parseDate : String → Option Int)
    (request : Request) (response : Response) (tag : String)
    (htok : parseTokens tag = [tag]) (hne : tag ≠ "")
    (hmatch : request.ifMatch = tag) (hetag : response.etag = "W/" ++ tag) :
    isETagMatching tag ("W/" ++ tag) = true ∧
      isPreconditionFailure parseDate request response = false := by
  have hm : isETagMatching tag ("W/" ++ tag) = true := by
    simp [isETagMatching]
  refine ⟨hm, ?_⟩
  have hwne : ("W/" ++ tag : String) ≠ "" := by
    intro h
    have h2 : ("W/" ++ tag).length = (0 : Nat) := by rw [h]; rfl
    rw [String.length_append] at h2
    have h3 : ("W/" : String).length = 2 := rfl
    omega
  by_cases hstar : tag = "*"
  · simp only [isPreconditionFailure, hmatch, hetag, hstar]
    simp only [hstar] at hwne
    simp [hwne]
  · simp only [isPreconditionFailure, hmatch, hetag]
    simp [hne, hwne, hstar, htok, hm]

/-- Witness for C2's amended theorem at the concrete token `"x"`. -/
theorem ifMatch_weak_comparison_witness :
    isETagMatching "\"x\"" ("W/" ++ "\"x\"") = true ∧
      isPreconditionFailure (fun _ => none)
        { ifMatch := "\"x\"" } { etag := "W/" ++ "\"x\"" } = false :=
  ifMatch_weak_comparison (fun _ => none)
    { ifMatch := "\"x\"" } { etag := "W/" ++ "\"x\"" } "\"x\""
    (by decide) (by decide) rfl rfl

/-- C3: with no `If-Range` header `isRangeFresh` is always `true`; with an
`If-Range` value that parses as a date, `isRangeFresh` is `true` iff
`Last-Modified` parses and is exactly equal to that date. -/
theorem isRangeFresh_date_exact (parseDate : String → Option Int)
    (request : Request) (response : Response) :
    (request.ifRange = "" → isRangeFresh parseDate request response = true) ∧
      (∀ d : Int, request.ifRange ≠ "" → parseDate request.ifRange = some d →
        (isRangeFresh parseDate request response = true ↔
          parseDate response.lastModified = some d)) := by
  constructor
  · intro h
    simp [isRangeFresh, h]
  · intro d hne hparse
    simp only [isRangeFresh, hparse]
    rw [if_neg (by simpa using hne)]
    cases hlm : parseDate response.lastModified with
    | none => simp
    | some lm =>
      constructor
      · intro h
        simp only [beq_iff_eq] at h
        exact congrArg some h
      · intro h
        injection h with h
        simp [h]

/-! ### Helper lemmas about the range-parser development -/

theorem insertSorted_length {α : Type} (le : α → α → Bool) (a : α) (l : List α) :
    (insertSorted le a l).length = l.length + 1 := by
  induction l with
  | nil => rfl
  | cons b bs ih =>
    simp only [insertSorted]
    split
    · simp [ih]
    · simp

theorem stableSort_length {α : Type} (le : α → α → Bool) (l : List α) :
    (stableSort le l).length = l.length := by
  suffices h : ∀ acc : List α,
      (l.foldl (fun acc a => insertSorted le a acc) acc).length = acc.length + l.length by
    simpa using h []
  induction l with
  | nil => intro acc; simp
  | cons a as ih =>
    intro acc
    simp only [List.foldl_cons]
    rw [ih, insertSorted_length]
    simp only [List.length_cons]
    omega

theorem mergeLoop_ne_nil (c : CombineRange) (l : List CombineRange) :
    mergeLoop c l ≠ [] := by
  induction l generalizing c with
  | nil => simp [mergeLoop]
  | cons r rest ih =>
    simp only [mergeLoop]
    split
    · simp
    · split
      · exact ih _
      · exact ih _

theorem mergeAll_ne_nil (l : List CombineRange) (h : l ≠ []) : mergeAll l ≠ [] := by
  cases l with
  | nil => exact absurd rfl h
  | cons r rest => exact mergeLoop_ne_nil r rest

theorem combineRanges_ne_nil (l : List (Int × Int)) (h : l ≠ []) :
    combineRanges l ≠ [] := by
  intro hc
  simp only [combineRanges] at hc
  rw [List.map_eq_nil] at hc
  have h2 := congrArg List.length hc
  rw [stableSort_length] at h2
  simp only [List.length_nil] at h2
  refine mergeAll_ne_nil _ ?_ (List.length_eq_zero.mp h2)
  intro hord
  have h3 := congrArg List.length hord
  rw [stableSort_length] at h3
  simp only [List.length_map, List.enum_length, List.length_nil] at h3
  exact h (List.length_eq_zero.mp h3)

theorem rangeParser_ne_nil (size : Int) (str : String) (combine : Bool)
    (ty : String) (l : List (Int × Int))
    (h : rangeParser size str combine = .ranges ty l) : l ≠ [] := by
  simp only [rangeParser] at h
  split at h
  · exact absurd h (by simp)
  · split at h
    · exact absurd h (by simp)
    · rename_i index hidx hklen
      split at h
      · injection h with _ h2
        refine h2 ▸ combineRanges_ne_nil _ ?_
        intro hnil
        rw [hnil] at hklen
        simp at hklen
      · injection h with _ h2
        intro hnil
        rw [h2, hnil] at hklen
        simp at hklen

theorem buildMultipart_fst_length (boundary contentType : String) (size : Int)
    (l : List (Nat × (Int × Int))) :
    (buildMultipart boundary contentType size l).1.length = l.length := by
  induction l with
  | nil => rfl
  | cons p rest ih =>
    obtain ⟨i, s, e⟩ := p
    simp only [buildMultipart, List.length_cons, ih]

theorem setLastSuffix_length (suffix : String) (l : List HttpRange) :
    (setLastSuffix suffix l).length = l.length := by
  induction l with
  | nil => rfl
  | cons r rest ih =>
    cases rest with
    | nil => rfl
    | cons r2 rest2 =>
      simp only [setLastSuffix, List.length_cons] at ih ⊢
      omega

theorem parseRanges_ne_nil (pd : String → Option Int) (boundary : String)
    (req : Request) (res : Response) (size : Int) (l : List HttpRange)
    (h : (parseRanges pd boundary req res size).1 = .list l) : l ≠ [] := by
  simp only [parseRanges] at h
  split at h
  · split at h
    · split at h
      · exact absurd h (by simp)
      · exact absurd h (by simp)
      · rename_i ty parsed heq
        split at h
        · split at h
          · rename_i h4
            simp only [Ranges.list.injEq] at h
            intro hnil
            rw [hnil] at h
            have h5 := setLastSuffix_length ("\r\n--" ++ boundary ++ "--\r\n")
              (buildMultipart boundary res.contentType size parsed.enum).1
            rw [h, buildMultipart_fst_length] at h5
            simp only [List.length_nil, List.enum_length] at h5
            omega
          · cases parsed with
            | nil => exact absurd rfl (rangeParser_ne_nil size req.range true ty [] heq)
            | cons se rest =>
              obtain ⟨s, e⟩ := se
              simp only [Ranges.list.injEq] at h
              rw [← h]
              simp
        · simp only [Ranges.list.injEq] at h
          rw [← h]
          simp
    · simp only [Ranges.list.injEq] at h
      rw [← h]
      simp
  · simp only [Ranges.list.injEq] at h
    rw [← h]
    simp

theorem string_append_assoc (a b c : String) : a ++ b ++ c = a ++ (b ++ c) := by
  apply String.ext
  simp [String.data_append, List.append_assoc]

theorem multipartPrefix_eq (b ct : String) (size : Int) (i : Nat) (s e : Int) :
    (if i > 0 then "\r\n" else "") ++ "--" ++ b ++ "\r\n" ++ "Content-Type: " ++ ct ++ "\r\n" ++
        ("Content-Range: bytes " ++ toString s ++ "-" ++ toString e ++ "/" ++ toString size) ++
        "\r\n\r\n" =
      specMultipartPrefix b ct size i (s, e) := by
  apply String.ext
  simp only [specMultipartPrefix, String.data_append, List.append_assoc]

theorem buildMultipart_fst_get? (boundary contentType : String) (size : Int)
    (l : List (Nat × (Int × Int))) (k : Nat) :
    (buildMultipart boundary contentType size l).1.get? k =
      (l.get? k).map fun p =>
        { offset := p.2.1, length := p.2.2 - p.2.1 + 1,
          prefixPad := some (specMultipartPrefix boundary contentType size p.1 p.2),
          suffixPad := none } := by
  induction l generalizing k with
  | nil => simp [buildMultipart]
  | cons p rest ih =>
    obtain ⟨i, s, e⟩ := p
    cases k with
    | zero => simp [buildMultipart, ← multipartPrefix_eq]
    | succ k =>
      simp only [buildMultipart, List.get?]
      rw [ih]

theorem buildMultipart_snd (boundary contentType : String) (size : Int)
    (l : List (Nat × (Int × Int))) :
    (buildMultipart boundary contentType size l).2 =
      (l.map fun p => (p.2.2 - p.2.1 + 1) +
        ((specMultipartPrefix boundary contentType size p.1 p.2).utf8ByteSize : Int)).sum := by
  induction l with
  | nil => simp [buildMultipart]
  | cons p rest ih =>
    obtain ⟨i, s, e⟩ := p
    simp only [buildMultipart, List.map_cons, List.sum_cons, ← multipartPrefix_eq, ih]
    try ring

theorem setLastSuffix_get? (suffix : String) (l : List HttpRange) (k : Nat) :
    (setLastSuffix suffix l).get? k =
      if k + 1 = l.length then (l.get? k).map fun r => { r with suffixPad := some suffix }
      else l.get? k := by
  induction l generalizing k with
  | nil => simp [setLastSuffix]
  | cons r rest ih =>
    cases rest with
    | nil =>
      cases k with
      | zero => simp [setLastSuffix]
      | succ k => simp [setLastSuffix]
    | cons r2 rest2 =>
      cases k with
      | zero =>
        simp only [setLastSuffix, List.get?, List.length_cons]
        rw [if_neg (by omega)]
      | succ k =>
        simp only [setLastSuffix, List.get?, List.length_cons]
        rw [ih k]
        simp only [List.length_cons]
        by_cases hk : k + 1 = rest2.length + 1
        · rw [if_pos hk, if_pos (by omega)]
        · rw [if_neg hk, if_neg (by omega)]

/-- C9: when range support is off (`Accept-Ranges` is not `bytes`), or the
request carries no `Range` header, or the range is not fresh per the
If-Range check, `parseRanges` returns the single full-file range
`{offset: 0, length: size}`, sets the response length to the file size, and
leaves the rest of the response — in particular the status, so no 206 —
unchanged. -/
theorem parseRanges_full_file_fallback (pd : String → Option Int) (boundary : String)
    (req : Request) (res : Response) (size : Int)
    (h : isBytesAcceptRanges res.acceptRanges = false ∨ req.range = "" ∨
      isRangeFresh pd req res = false) :
    parseRanges pd boundary req res size =
      (.list [{ offset := 0, length := size }], { res with contentLength := some size }) ∧
      (parseRanges pd boundary req res size).2.status = res.status := by
  have hmain : parseRanges pd boundary req res size =
      (.list [{ offset := 0, length := size }], { res with contentLength := some size }) := by
    rcases h with h | h | h
    · simp [parseRanges, h]
    · simp [parseRanges, h]
    · simp [parseRanges, h]
  exact ⟨hmain, by rw [hmain]⟩

/-- Witness for C9 with range support disabled (`Accept-Ranges: none`). -/
theorem parseRanges_full_file_fallback_witness :
    parseRanges (fun _ => none) "B" { range := "bytes=0-4" } { acceptRanges := "none" } 10 =
      (.list [{ offset := 0, length := 10 }],
        { ({ acceptRanges := "none" } : Response) with contentLength := some 10 }) ∧
      (parseRanges (fun _ => none) "B" { range := "bytes=0-4" }
          { acceptRanges := "none" } 10).2.status =
        ({ acceptRanges := "none" } : Response).status :=
  parseRanges_full_file_fallback (fun _ => none) "B" { range := "bytes=0-4" }
    { acceptRanges := "none" } 10 (.inl (by decide))

/-- C8: the range negotiation has exactly three outcomes, and the
`Service.respond` dispatch reacts as specified: the malformed sentinel makes
the caller throw 400; the unsatisfiable sentinel makes it set
`Content-Range: bytes */<size>` and throw 416; otherwise the result is a
non-empty list of ranges which becomes the response body.  The three cases
are mutually exclusive since they are distinct constructors of `Ranges`. -/
theorem parseRanges_outcome_trichotomy (pd : String → Option Int) (boundary : String)
    (req : Request) (res : Response) (size : Int) :
    ((parseRanges pd boundary req res size).1 = .malformed ∧
      respondRanges (parseRanges pd boundary req res size).1 size
          (parseRanges pd boundary req res size).2 =
        .throwStatus 400 (parseRanges pd boundary req res size).2) ∨
    ((parseRanges pd boundary req res size).1 = .unsatisfiable ∧
      respondRanges (parseRanges pd boundary req res size).1 size
          (parseRanges pd boundary req res size).2 =
        .throwStatus 416
          { (parseRanges pd boundary req res size).2 with
            contentRange := "bytes */" ++ toString size }) ∨
    (∃ l, (parseRanges pd boundary req res size).1 = .list l ∧ l ≠ [] ∧
      respondRanges (parseRanges pd boundary req res size).1 size
          (parseRanges pd boundary req res size).2 =
        .body l (parseRanges pd boundary req res size).2) := by
  cases hres : (parseRanges pd boundary req res size).1 with
  | malformed => exact .inl ⟨rfl, rfl⟩
  | unsatisfiable => exact .inr (.inl ⟨rfl, rfl⟩)
  | list l =>
    exact .inr (.inr ⟨l, rfl, parseRanges_ne_nil pd boundary req res size l hres, rfl⟩)

/-- C4: in a multi-range negotiation (`n > 1` combined satisfiable ranges),
`parseRanges` builds for the `k`-th range the prefix
`(leading \r\n except for the first part) ++ "--" ++ boundary ++ "\r\n" ++
"Content-Type: " ++ originalType ++ "\r\n" ++ "Content-Range: bytes " ++
start ++ "-" ++ end ++ "/" ++ size ++ "\r\n\r\n"`, attaches the closing
suffix `"\r\n--" ++ boundary ++ "--\r\n"` only to the last range, and sets
the response `Content-Length` to the sum over all ranges of (range byte
length + prefix byte length) plus the suffix byte length. -/
theorem parseRanges_multipart_framing (pd : String → Option Int) (boundary : String)
    (req : Request) (res : Response) (size : Int) (parsed : List (Int × Int))
    (hacc : isBytesAcceptRanges res.acceptRanges = true)
    (hrange : req.range ≠ "")
    (hfresh : isRangeFresh pd req res = true)
    (hparse : rangeParser size req.range true = .ranges "bytes" parsed)
    (hlen : 1 < parsed.length) :
    ∃ out : List HttpRange,
      (parseRanges pd boundary req res size).1 = .list out ∧
      out.length = parsed.length ∧
      (∀ k se, parsed.get? k = some se →
        out.get? k = some
          { offset := se.1, length := se.2 - se.1 + 1,
            prefixPad := some (specMultipartPrefix boundary res.contentType size k se),
            suffixPad :=
              if k + 1 = parsed.length then some (specMultipartSuffix boundary) else none }) ∧
      (parseRanges pd boundary req res size).2.contentLength =
        some ((parsed.enum.map fun p => (p.2.2 - p.2.1 + 1) +
            ((specMultipartPrefix boundary res.contentType size p.1 p.2).utf8ByteSize : Int)).sum +
          ((specMultipartSuffix boundary).utf8ByteSize : Int)) := by
  have hb : (req.range != "") = true := by
    rw [bne_iff_ne]
    exact hrange
  have hmain : parseRanges pd boundary req res size =
      (.list (setLastSuffix (specMultipartSuffix boundary)
          (buildMultipart boundary res.contentType size parsed.enum).1),
        { res with
          status := 206,
          contentType := "multipart/byteranges; boundary=\"" ++ boundary ++ "\"",
          contentLength :=
            some ((buildMultipart boundary res.contentType size parsed.enum).2 +
              ((specMultipartSuffix boundary).utf8ByteSize : Int)) }) := by
    simp only [parseRanges, hacc, hb, hfresh, Bool.and_self, if_true, hparse,
      beq_self_eq_true, specMultipartSuffix]
    rw [if_pos hlen]
  have hout1 : (buildMultipart boundary res.contentType size parsed.enum).1.length =
      parsed.length := by
    rw [buildMultipart_fst_length, List.enum_length]
  refine ⟨setLastSuffix (specMultipartSuffix boundary)
    (buildMultipart boundary res.contentType size parsed.enum).1, by rw [hmain], ?_, ?_, ?_⟩
  · rw [setLastSuffix_length, hout1]
  · intro k se hse
    rw [setLastSuffix_get?, buildMultipart_fst_get?, hout1, List.get?_enum, hse]
    by_cases hk : k + 1 = parsed.length
    · rw [if_pos hk, if_pos hk]
      rfl
    · rw [if_neg hk, if_neg hk]
      rfl
  · rw [hmain, buildMultipart_snd]

/-- Witness for C4 at `Range: bytes=0-9,20-29` against a 100-byte file. -/
theorem parseRanges_multipart_framing_witness :
    ∃ out : List HttpRange,
      (parseRanges (fun _ => none) "B" { range := "bytes=0-9,20-29" }
          { acceptRanges := "bytes", contentType := "text/plain" } 100).1 = .list out ∧
      out.length = ([((0 : Int), (9 : Int)), (20, 29)] : List (Int × Int)).length ∧
      (∀ k se, ([((0 : Int), (9 : Int)), (20, 29)] : List (Int × Int)).get? k = some se →
        out.get? k = some
          { offset := se.1, length := se.2 - se.1 + 1,
            prefixPad := some (specMultipartPrefix "B" "text/plain" 100 k se),
            suffixPad := if k + 1 = 2 then some (specMultipartSuffix "B") else none }) ∧
      (parseRanges (fun _ => none) "B" { range := "bytes=0-9,20-29" }
          { acceptRanges := "bytes", contentType := "text/plain" } 100).2.contentLength =
        some ((([((0 : Int), (9 : Int)), (20, 29)] : List (Int × Int)).enum.map fun p =>
            (p.2.2 - p.2.1 + 1) +
              ((specMultipartPrefix "B" "text/plain" 100 p.1 p.2).utf8ByteSize : Int)).sum +
          ((specMultipartSuffix "B").utf8ByteSize : Int)) :=
  parseRanges_multipart_framing (fun _ => none) "B" { range := "bytes=0-9,20-29" }
    { acceptRanges := "bytes", contentType := "text/plain" } 100 [(0, 9), (20, 29)]
    (by decide) (by decide) (by decide) (by decide) (by decide)

/-- Witness for C3 at a concrete date parser and concrete headers. -/
theorem isRangeFresh_date_exact_witness :
    isRangeFresh (fun s => if s = "D" then some 5 else none)
        { ifRange := "D" } { lastModified := "D" } = true ↔
      (fun s : String => if s = "D" then some (5 : Int) else none) "D" = some 5 :=
  (isRangeFresh_date_exact (fun s => if s = "D" then some 5 else none)
    { ifRange := "D" } { lastModified := "D" }).2 5 (by decide) (by decide)

/-! ### Helper lemmas about the stream machine -/

theorem readPull_ended (s : StreamState) (size : Nat) (h : s.ended = true) :
    readPull s size = s := by
  simp [readPull, h]

theorem runPulls_ended (s : StreamState) (sizes : List Nat) (h : s.ended = true) :
    runPulls s sizes = s := by
  induction sizes with
  | nil => rfl
  | cons z rest ih => simp [runPulls, readPull_ended s z h, ih]

theorem readPull_range (s : StreamState) (size : Nat) (hend : s.ended = false)
    (r : StreamRange) (hr : s.ranges.get? s.currentRangeIndex = some r)
    (hst : s.readState = .RANGE) :
    readPull s size =
      streamAux s.file s.ranges size (4 * (s.ranges.length + 1)) .range
        s.currentRangeIndex s.readState s.bytesRead s.output s.reads := by
  unfold readPull
  simp only [hend, hr, hst, Bool.false_eq_true, if_false]

theorem readPull_single_suffix_end (file : List Nat) (N size : Nat)
    (out : List Chunk) (reads : Nat) :
    readPull
        { file := file, ranges := [⟨0, N, none, none⟩], bytesRead := 0,
          currentRangeIndex := 0, readState := .SUFFIX, output := out, ended := false,
          reads := reads }
        size =
      { file := file, ranges := [⟨0, N, none, none⟩], bytesRead := 0,
        currentRangeIndex := 1, readState := .PREFIX, output := out, ended := true,
        reads := reads } := by
  simp [readPull, streamAux, getPadding]

theorem readPull_single_init (file : List Nat) (N size : Nat) :
    readPull (initState file [⟨0, N, none, none⟩]) size =
      streamAux file [⟨0, N, none, none⟩] size 7 .range 0 .RANGE 0 [] 0 := by
  simp [readPull, initState, streamAux, getPadding]

theorem streamAux_single_run (file : List Nat) (size : Nat) (hsize : 1 ≤ size) :
    ∀ (mleft : Nat) (fuel : Nat) (k : Nat) (out : List Chunk) (reads : Nat),
      k ≤ file.length → file.length - k ≤ mleft →
      (runPulls (streamAux file [⟨0, file.length, none, none⟩] size (fuel + 2) .range 0 .RANGE
            k out reads)
          (List.replicate mleft size)).ended = true ∧
      emittedBytes (runPulls (streamAux file [⟨0, file.length, none, none⟩] size (fuel + 2)
            .range 0 .RANGE k out reads)
          (List.replicate mleft size)) =
        (out.map Chunk.bytes).join ++ file.drop k := by
  have hend : ∀ (fuel : Nat) (out : List Chunk) (reads : Nat),
      streamAux file [⟨0, file.length, none, none⟩] size (fuel + 2) .range 0 .RANGE
          file.length out reads =
        { file := file, ranges := [⟨0, file.length, none, none⟩], bytesRead := 0,
          currentRangeIndex := 1, readState := .PREFIX, output := out, ended := true,
          reads := reads + 1 } := by
    intro fuel out reads
    simp [streamAux, fsRead, getPadding]
  intro mleft
  induction mleft with
  | zero =>
    intro fuel k out reads hk hm
    have hkN : k = file.length := by omega
    subst hkN
    rw [hend fuel out reads]
    simp [runPulls, emittedBytes, List.drop_length]
  | succ mleft ih =>
    intro fuel k out reads hk hm
    by_cases hkN : k < file.length
    · have hlen : (fsRead file (min size (file.length - k)) k).length =
          min size (file.length - k) := by
        simp only [fsRead, List.length_take, List.length_drop]
        omega
      have hpos : 0 < (fsRead file (min size (file.length - k)) k).length := by
        rw [hlen]; omega
      by_cases hdone : file.length ≤ k + min size (file.length - k)
      · have hstep : streamAux file [⟨0, file.length, none, none⟩] size (fuel + 2) .range 0
              .RANGE k out reads =
            { file := file, ranges := [⟨0, file.length, none, none⟩], bytesRead := 0,
              currentRangeIndex := 0, readState := .SUFFIX,
              output := out ++ [⟨0, .RANGE, k, fsRead file (min size (file.length - k)) k⟩],
              ended := false, reads := reads + 1 } := by
          show streamAux file [⟨0, file.length, none, none⟩] size ((fuel + 1) + 1) .range 0
              .RANGE k out reads = _
          simp only [streamAux, List.get?_cons_zero, Nat.zero_add]
          rw [if_pos hpos]
          rw [if_pos hpos, if_pos hpos]
          rw [hlen]
          rw [if_pos hdone, if_pos hdone]
        rw [hstep, List.replicate_succ]
        simp only [runPulls]
        rw [readPull_single_suffix_end]
        rw [runPulls_ended _ _ rfl]
        refine ⟨rfl, ?_⟩
        have hbytes : fsRead file (min size (file.length - k)) k = file.drop k := by
          simp only [fsRead]
          exact List.take_of_length_le (by simp [List.length_drop]; omega)
        simp [emittedBytes, hbytes]
      · have hstep : streamAux file [⟨0, file.length, none, none⟩] size (fuel + 2) .range 0
              .RANGE k out reads =
            { file := file, ranges := [⟨0, file.length, none, none⟩],
              bytesRead := k + min size (file.length - k),
              currentRangeIndex := 0, readState := .RANGE,
              output := out ++ [⟨0, .RANGE, k, fsRead file (min size (file.length - k)) k⟩],
              ended := false, reads := reads + 1 } := by
          show streamAux file [⟨0, file.length, none, none⟩] size ((fuel + 1) + 1) .range 0
              .RANGE k out reads = _
          simp only [streamAux, List.get?_cons_zero, Nat.zero_add]
          rw [if_pos hpos]
          rw [if_pos hpos, if_pos hpos]
          rw [hlen]
          rw [if_neg hdone, if_neg hdone]
        rw [hstep, List.replicate_succ]
        simp only [runPulls]
        rw [readPull_range _ size rfl ⟨0, file.length, none, none⟩ (by simp) rfl]
        simp only [List.length_cons, List.length_nil]
        have h8 : 4 * ((0 : Nat) + 1 + 1) = 6 + 2 := by norm_num
        rw [h8]
        have hih := ih 6 (k + min size (file.length - k))
          (out ++ [⟨0, .RANGE, k, fsRead file (min size (file.length - k)) k⟩])
          (reads + 1) (by omega) (by omega)
        refine ⟨hih.1, ?_⟩
        rw [hih.2]
        have hbytes : fsRead file (min size (file.length - k)) k =
            (file.drop k).take (min size (file.length - k)) := by
          simp [fsRead]
        rw [hbytes]
        simp only [List.map_append, List.map_cons, List.map_nil, List.join_append,
          List.join_cons, List.join_nil, List.append_nil, List.append_assoc]
        congr 1
        rw [← List.drop_drop]
        exact List.take_append_drop _ _
    · have hkN' : k = file.length := by omega
      subst hkN'
      rw [hend fuel out reads, List.replicate_succ]
      simp only [runPulls]
      rw [readPull_ended _ _ rfl, runPulls_ended _ _ rfl]
      simp [emittedBytes, List.drop_length]

/-- C5: streaming the single full-file range `{offset: 0, length: fileSize}`
(no prefix, no suffix) and concatenating every emitted chunk in emission
order yields exactly the file's bytes, and the stream reaches
end-of-stream. -/
theorem full_range_roundtrip (file : List Nat) (size : Nat) (hsize : 1 ≤ size) :
    (runPulls (initState file [{ offset := 0, length := file.length }])
        (List.replicate (file.length + 2) size)).ended = true ∧
      emittedBytes (runPulls (initState file [{ offset := 0, length := file.length }])
        (List.replicate (file.length + 2) size)) = file := by
  have h2 : file.length + 2 = (file.length + 1) + 1 := rfl
  rw [h2, List.replicate_succ]
  have hstep : runPulls (initState file [{ offset := 0, length := file.length }])
      (size :: List.replicate (file.length + 1) size) =
      runPulls (readPull (initState file [{ offset := 0, length := file.length }]) size)
        (List.replicate (file.length + 1) size) := rfl
  rw [hstep, readPull_single_init, show (7 : Nat) = 5 + 2 from rfl]
  have h := streamAux_single_run file size hsize (file.length + 1) 5 0 [] 0
    (by omega) (by omega)
  refine ⟨h.1, ?_⟩
  rw [h.2]
  simp

/-- Witness for C5 on a concrete 3-byte file pulled with size 2. -/
theorem full_range_roundtrip_witness :
    (runPulls (initState [7, 8, 9] [{ offset := 0, length := [7, 8, 9].length }])
        (List.replicate ([7, 8, 9].length + 2) 2)).ended = true ∧
      emittedBytes (runPulls (initState [7, 8, 9] [{ offset := 0, length := [7, 8, 9].length }])
        (List.replicate ([7, 8, 9].length + 2) 2)) = [7, 8, 9] :=
  full_range_roundtrip [7, 8, 9] 2 (by decide)

/-- C10: on the empty range list the very first pull signals end-of-stream
immediately: no positioned read is issued and no chunk is emitted. -/
theorem emptyRanges_first_pull_eos (file : List Nat) (size : Nat) :
    readPull (initState file []) size = { initState file [] with ended := true } ∧
      (readPull (initState file []) size).output = [] ∧
      (readPull (initState file []) size).reads = 0 :=
  ⟨rfl, rfl, rfl⟩

/-! ### Helper lemmas about the teardown lifecycle -/

theorem lifecycleStep_inv (closeError : Option String) (s : LifecycleState)
    (e : DestroyEvent) (hinv : LifecycleInv s) (hv : ValidEvent s e) :
    LifecycleInv (lifecycleStep closeError s e) := by
  obtain ⟨fd, reading, destroyed, pending, closeCalls, cwr, cbs⟩ := s
  cases e <;> cases reading <;> cases destroyed <;> cases pending <;> cases fd <;>
    simp_all [LifecycleInv, lifecycleStep, ValidEvent, dispose] <;>
    first
    | omega
    | (exfalso; omega)
    | (split <;> simp_all)

theorem runLifecycle_inv (closeError : Option String) (s : LifecycleState)
    (events : List DestroyEvent) (hinv : LifecycleInv s)
    (hv : ValidTrace closeError s events) :
    LifecycleInv (runLifecycle closeError s events) := by
  induction events generalizing s with
  | nil => exact hinv
  | cons e es ih => exact ih _ (lifecycleStep_inv closeError s e hinv hv.1) hv.2

/-- C7: on every valid trace the file descriptor is never closed while a
read is outstanding; `_destroy` during an outstanding read defers the close
(no `fs.close`, the `fd` and callback stay untouched) until that read's
completion callback runs, which then closes exactly once and invokes the
completion callback with the pending error (`error ?? readError ??
closeError`); `_destroy` with no read outstanding closes immediately; and
in any terminal (destroyed and idle) state the descriptor has been released
exactly once, with exactly one completion-callback invocation. -/
theorem destroy_defers_close (closeError : Option String) (s : LifecycleState)
    (events : List DestroyEvent)
    (hinv : LifecycleInv s) (hv : ValidTrace closeError s events) :
    (runLifecycle closeError s events).closedWhileReading = false ∧
    (∀ e, s.reading = true → s.destroyed = false →
      (lifecycleStep closeError s (.destroyCall e)).closeCalls = s.closeCalls ∧
      (lifecycleStep closeError s (.destroyCall e)).fd = s.fd ∧
      (lifecycleStep closeError s (.destroyCall e)).callbackCalls = s.callbackCalls) ∧
    (∀ e re, s.reading = true → s.destroyed = false → s.fd.isSome = true →
      (lifecycleStep closeError (lifecycleStep closeError s (.destroyCall e))
          (.readComplete re)).closeCalls = s.closeCalls + 1 ∧
      (lifecycleStep closeError (lifecycleStep closeError s (.destroyCall e))
          (.readComplete re)).fd = none ∧
      (lifecycleStep closeError (lifecycleStep closeError s (.destroyCall e))
          (.readComplete re)).closedWhileReading = s.closedWhileReading ∧
      (lifecycleStep closeError (lifecycleStep closeError s (.destroyCall e))
          (.readComplete re)).callbackCalls =
        s.callbackCalls ++ [(e.orElse fun _ => re).orElse fun _ => closeError]) ∧
    (∀ e, s.reading = false → s.destroyed = false → s.fd.isSome = true →
      (lifecycleStep closeError s (.destroyCall e)).closeCalls = s.closeCalls + 1 ∧
      (lifecycleStep closeError s (.destroyCall e)).fd = none ∧
      (lifecycleStep closeError s (.destroyCall e)).callbackCalls =
        s.callbackCalls ++ [e.orElse fun _ => closeError]) ∧
    ((runLifecycle closeError s events).destroyed = true →
      (runLifecycle closeError s events).reading = false →
      (runLifecycle closeError s events).closeCalls = 1 ∧
      (runLifecycle closeError s events).fd = none ∧
      (runLifecycle closeError s events).callbackCalls.length = 1) := by
  have hrun := runLifecycle_inv closeError s events hinv hv
  obtain ⟨hr1, hr2, hr3, hr4, hr5, hr6, hr7⟩ := hrun
  refine ⟨hr1, ?_, ?_, ?_, ?_⟩
  · intro e hr hd
    simp [lifecycleStep, hr]
  · intro e re hr hd hfd
    obtain ⟨n, hn⟩ := Option.isSome_iff_exists.mp hfd
    simp [lifecycleStep, dispose, hr, hd, hn]
  · intro e hr hd hfd
    obtain ⟨n, hn⟩ := Option.isSome_iff_exists.mp hfd
    simp [lifecycleStep, dispose, hr, hd, hn]
  · intro hdest hread
    obtain ⟨hpend, hclose⟩ := hr6 hdest hread
    refine ⟨hclose, ?_, by rw [hr3, hclose]⟩
    cases hfd : (runLifecycle closeError s events).fd with
    | none => rfl
    | some n =>
      exfalso
      have := hr2.mp (by simp [hfd])
      omega

/-- Witness for C7: a concrete trace — a read starts, the stream is
destroyed mid-read, then the read completes. -/
theorem destroy_defers_close_witness :
    (runLifecycle none (initLifecycle 3)
        [.readStart, .destroyCall none, .readComplete none]).closedWhileReading = false ∧
    (∀ e, (initLifecycle 3).reading = true → (initLifecycle 3).destroyed = false →
      (lifecycleStep none (initLifecycle 3) (.destroyCall e)).closeCalls =
        (initLifecycle 3).closeCalls ∧
      (lifecycleStep none (initLifecycle 3) (.destroyCall e)).fd = (initLifecycle 3).fd ∧
      (lifecycleStep none (initLifecycle 3) (.destroyCall e)).callbackCalls =
        (initLifecycle 3).callbackCalls) ∧
    (∀ e re, (initLifecycle 3).reading = true → (initLifecycle 3).destroyed = false →
      (initLifecycle 3).fd.isSome = true →
      (lifecycleStep none (lifecycleStep none (initLifecycle 3) (.destroyCall e))
          (.readComplete re)).closeCalls = (initLifecycle 3).closeCalls + 1 ∧
      (lifecycleStep none (lifecycleStep none (initLifecycle 3) (.destroyCall e))
          (.readComplete re)).fd = none ∧
      (lifecycleStep none (lifecycleStep none (initLifecycle 3) (.destroyCall e))
          (.readComplete re)).closedWhileReading = (initLifecycle 3).closedWhileReading ∧
      (lifecycleStep none (lifecycleStep none (initLifecycle 3) (.destroyCall e))
          (.readComplete re)).callbackCalls =
        (initLifecycle 3).callbackCalls ++ [(e.orElse fun _ => re).orElse fun _ => none]) ∧
    (∀ e, (initLifecycle 3).reading = false → (initLifecycle 3).destroyed = false →
      (initLifecycle 3).fd.isSome = true →
      (lifecycleStep none (initLifecycle 3) (.destroyCall e)).closeCalls =
        (initLifecycle 3).closeCalls + 1 ∧
      (lifecycleStep none (initLifecycle 3) (.destroyCall e)).fd = none ∧
      (lifecycleStep none (initLifecycle 3) (.destroyCall e)).callbackCalls =
        (initLifecycle 3).callbackCalls ++ [e.orElse fun _ => none]) ∧
    ((runLifecycle none (initLifecycle 3)
        [.readStart, .destroyCall none, .readComplete none]).destroyed = true →
      (runLifecycle none (initLifecycle 3)
          [.readStart, .destroyCall none, .readComplete none]).reading = false →
      (runLifecycle none (initLifecycle 3)
          [.readStart, .destroyCall none, .readComplete none]).closeCalls = 1 ∧
      (runLifecycle none (initLifecycle 3)
          [.readStart, .destroyCall none, .readComplete none]).fd = none ∧
      (runLifecycle none (initLifecycle 3)
          [.readStart, .destroyCall none, .readComplete none]).callbackCalls.length = 1) :=
  destroy_defers_close none (initLifecycle 3)
    [.readStart, .destroyCall none, .readComplete none]
    (by simp [LifecycleInv, initLifecycle])
    (by simp [ValidTrace, ValidEvent, lifecycleStep, initLifecycle])


/-! ### Helper lemmas about the cursor ordering -/

theorem keyLE_iff (i x b i2 x2 b2 : Nat) :
    keyLE (i, x, b) (i2, x2, b2) ↔
      (i < i2 ∨ (i = i2 ∧ (x < x2 ∨ (x = x2 ∧ b ≤ b2)))) := by
  simp [keyLE]

theorem keyLE_refl (a : Nat × Nat × Nat) : keyLE a a := by
  simp [keyLE]

theorem keyLE_trans {a b c : Nat × Nat × Nat} (h1 : keyLE a b) (h2 : keyLE b c) :
    keyLE a c := by
  obtain ⟨a1, a2, a3⟩ := a
  obtain ⟨b1, b2, b3⟩ := b
  obtain ⟨c1, c2, c3⟩ := c
  simp only [keyLE_iff] at *
  omega

theorem pairwise_append_chunk {output : List Chunk} {c : Chunk}
    (hp : List.Pairwise chunkLE output)
    (hb : ∀ d ∈ output, keyLE (chunkKey d) (chunkKey c)) :
    List.Pairwise chunkLE (output ++ [c]) := by
  rw [List.pairwise_append]
  refine ⟨hp, List.pairwise_singleton _ _, ?_⟩
  intro a ha b hbmem
  simp only [List.mem_singleton] at hbmem
  subst hbmem
  exact hb a ha

theorem chunkBound_mono {output : List Chunk} {K K2 : Nat × Nat × Nat}
    (hb : ∀ d ∈ output, keyLE (chunkKey d) K) (h : keyLE K K2) :
    ∀ d ∈ output, keyLE (chunkKey d) K2 :=
  fun d hd => keyLE_trans (hb d hd) h

theorem chunkBound_append {output : List Chunk} {c : Chunk} {K : Nat × Nat × Nat}
    (hb : ∀ d ∈ output, keyLE (chunkKey d) K) (hcK : keyLE (chunkKey c) K) :
    ∀ d ∈ output ++ [c], keyLE (chunkKey d) K := by
  intro d hd
  rcases List.mem_append.mp hd with h | h
  · exact hb d h
  · simp only [List.mem_singleton] at h
    subst h
    exact hcK

theorem phaseStep_fst_le {a b : Nat × ReadState}
    (h : Relation.ReflTransGen PhaseStep a b) : a.1 ≤ b.1 := by
  induction h with
  | refl => exact le_refl _
  | tail _ hstep ih => cases hstep <;> simp_all <;> omega

/-- Discharges the chain postcondition for a literal result record. -/
theorem AuxPost_record (file : List Nat) (ranges : List StreamRange)
    (hwfr : ∀ r ∈ ranges, r.offset + r.length ≤ file.length)
    (i : Nat) (rs : ReadState) (b : Nat) (output : List Chunk)
    (i2 : Nat) (rs2 : ReadState) (b2 : Nat) (output2 : List Chunk)
    (e2 : Bool) (reads2 : Nat)
    (hcw : cursorWF ranges i2 rs2 b2)
    (hpw : List.Pairwise chunkLE output2)
    (hbd : ∀ c ∈ output2, keyLE (chunkKey c) (i2, phaseOrder rs2, b2))
    (hrtg : Relation.ReflTransGen PhaseStep (i, rs) (i2, rs2))
    (hpre : output <+: output2)
    (hkey : keyLE (i, phaseOrder rs, b) (i2, phaseOrder rs2, b2)) :
    AuxPost file ranges i rs b output
      { file := file, ranges := ranges, bytesRead := b2, currentRangeIndex := i2,
        readState := rs2, output := output2, ended := e2, reads := reads2 } :=
  ⟨rfl, rfl, ⟨hwfr, hcw⟩, ⟨hpw, hbd⟩, hrtg, hpre, hkey⟩

/-- Composes a legal entry transition with the postcondition of the
continuation of the chain. -/
theorem AuxPost_mono {file : List Nat} {ranges : List StreamRange}
    {i : Nat} {rs : ReadState} {b : Nat} {output : List Chunk}
    {i2 : Nat} {rs2 : ReadState} {b2 : Nat} {output2 : List Chunk} {s2 : StreamState}
    (hpost : AuxPost file ranges i2 rs2 b2 output2 s2)
    (hrtg : Relation.ReflTransGen PhaseStep (i, rs) (i2, rs2))
    (hkey : keyLE (i, phaseOrder rs, b) (i2, phaseOrder rs2, b2))
    (hpre : output <+: output2) :
    AuxPost file ranges i rs b output s2 := by
  obtain ⟨h1, h2, h3, h4, h5, h6, h7⟩ := hpost
  exact ⟨h1, h2, h3, h4, hrtg.trans h5, hpre.trans h6, keyLE_trans hkey h7⟩

theorem cursorWF_zero (ranges : List StreamRange) (j : Nat) (rs2 : ReadState) :
    cursorWF ranges j rs2 0 := by
  unfold cursorWF
  cases ranges.get? j with
  | none => trivial
  | some r => exact ⟨fun _ => Nat.zero_le _, fun p _ => Nat.zero_le _⟩

theorem streamAux_inv (file : List Nat) (ranges : List StreamRange) (size : Nat)
    (hwfr : ∀ r ∈ ranges, r.offset + r.length ≤ file.length) (hsize : 1 ≤ size) :
    ∀ (fuel : Nat) (mode : AuxMode) (i : Nat) (rs : ReadState) (b : Nat)
      (output : List Chunk) (reads : Nat),
      (mode = .range → rs = .RANGE) →
      (mode = .padding → rs = .PREFIX ∨ rs = .SUFFIX) →
      cursorWF ranges i rs b →
      List.Pairwise chunkLE output →
      (∀ c ∈ output, keyLE (chunkKey c) (i, phaseOrder rs, b)) →
      AuxPost file ranges i rs b output
        (streamAux file ranges size fuel mode i rs b output reads) := by
  intro fuel
  induction fuel with
  | zero =>
    intro mode i rs b output reads hm hp hcw hpw hbd
    exact ⟨rfl, rfl, ⟨hwfr, hcw⟩, ⟨hpw, hbd⟩, .refl, List.prefix_refl _, keyLE_refl _⟩
  | succ fuel ih =>
    intro mode i rs b output reads hm hp hcw hpw hbd
    cases mode with
    | range =>
      have hrs := hm rfl
      subst hrs
      cases hr : ranges.get? i with
      | none =>
        simp only [streamAux, hr]
        exact AuxPost_record file ranges hwfr i .RANGE b output i .RANGE b output false reads
          hcw hpw hbd .refl (List.prefix_refl _) (keyLE_refl _)
      | some r =>
        have hwr : r.offset + r.length ≤ file.length := hwfr r (List.get?_mem hr)
        have hble : b ≤ r.length := by
          simp only [cursorWF, hr] at hcw
          exact hcw.1 (by trivial)
        simp only [streamAux, hr]
        by_cases hn : 0 < (fsRead file (min size (r.length - b)) (r.offset + b)).length
        · -- bytes were read: the chain records and stops.
          simp only [if_pos hn]
          set n := (fsRead file (min size (r.length - b)) (r.offset + b)).length with hndef
          by_cases hdone : r.length ≤ b + n
          · simp only [if_pos hdone]
            refine AuxPost_record file ranges hwfr i .RANGE b output i .SUFFIX 0 _ false
              (reads + 1) (cursorWF_zero ranges i .SUFFIX) ?_ ?_
              (.single (.rangeToSuffix i)) (List.prefix_append _ _) ?_
            · exact pairwise_append_chunk hpw hbd
            · refine chunkBound_append (chunkBound_mono hbd ?_) ?_ <;>
                simp [keyLE, chunkKey, phaseOrder]
            · simp [keyLE, phaseOrder]
          · simp only [if_neg hdone]
            refine AuxPost_record file ranges hwfr i .RANGE b output i .RANGE (b + n) _ false
              (reads + 1) ?_ ?_ ?_ .refl (List.prefix_append _ _) ?_
            · simp only [cursorWF, hr]
              exact ⟨fun _ => by omega, fun p hp2 => by simp [getPadding] at hp2⟩
            · exact pairwise_append_chunk hpw hbd
            · refine chunkBound_append (chunkBound_mono hbd ?_) ?_ <;>
                simp [keyLE, chunkKey, phaseOrder]
            · simp [keyLE, phaseOrder]
        · -- no bytes read: only possible once the range is fully consumed.
          have hbeq : r.length ≤ b := by
            by_contra hlt
            apply hn
            have hp1 : r.offset + b < file.length := by omega
            have h1 : 1 ≤ min size (r.length - b) := by omega
            simp only [fsRead, List.length_take, List.length_drop]
            omega
          simp only [if_neg hn]
          have hso : ¬ (0 : Nat) < 0 := by omega
          simp only [if_neg hso, if_pos hbeq]
          have hpost := ih .padding i .SUFFIX 0 output (reads + 1)
            (fun h => nomatch h) (fun _ => Or.inr rfl)
            (cursorWF_zero ranges i .SUFFIX) hpw
            (chunkBound_mono hbd (by simp [keyLE, phaseOrder]))
          exact AuxPost_mono hpost (.single (.rangeToSuffix i))
            (by simp [keyLE, phaseOrder]) (List.prefix_refl _)
    | padding =>
      rcases hp rfl with hrs | hrs
      · subst hrs
        cases hr : ranges.get? i with
        | none =>
          simp only [streamAux, hr]
          exact AuxPost_record file ranges hwfr i _ b output i _ b output false reads
            hcw hpw hbd .refl (List.prefix_refl _) (keyLE_refl _)
        | some r =>
          have hwr : r.offset + r.length ≤ file.length := hwfr r (List.get?_mem hr)
          simp only [streamAux, hr, getPadding]
          cases hpad : r.prefixPad with
          | none =>
            simp only [hpad, Option.isSome_none, Option.getD_none, List.length_nil]
            have hnp : ¬((false = true) ∧ 0 < 0) := by simp
            have hoc : ¬(false = true) ∨ (0 : Nat) ≤ b := Or.inl (by simp)
            simp only [if_neg hnp, if_pos hoc]
            have hnb : ¬ (0 : Nat) < 0 := by omega
            simp only [if_pos hnb]
            have hpost := ih .range i .RANGE 0 output reads (fun _ => rfl)
              (fun h => nomatch h) (cursorWF_zero ranges i .RANGE) hpw
              (chunkBound_mono hbd (by simp [keyLE, phaseOrder]))
            exact AuxPost_mono hpost (.single (.prefixToRange i))
              (by simp [keyLE, phaseOrder]) (List.prefix_refl _)
          | some p =>
            have hbp : b ≤ p.length := by
              simp only [cursorWF, hr] at hcw
              exact hcw.2 p (by simp [getPadding, hpad])
            simp only [hpad, Option.isSome_some, Option.getD_some]
            by_cases hlen : 0 < p.length
            · have hpn : True ∧ 0 < p.length := ⟨trivial, hlen⟩
              simp only [if_pos hpn]
              by_cases hdone : p.length ≤ b + min size (p.length - b)
              · have hoc : ¬True ∨ p.length ≤ b + min size (p.length - b) :=
                  Or.inr hdone
                simp only [if_pos hoc]
                by_cases hn : 0 < min size (p.length - b)
                · have hnn : ¬ ¬ 0 < min size (p.length - b) := fun h => h hn
                  simp only [if_neg hnn]
                  refine AuxPost_record file ranges hwfr i .PREFIX b output i .RANGE 0 _
                    false reads (cursorWF_zero ranges i .RANGE)
                    (pairwise_append_chunk hpw hbd) ?_
                    (.single (.prefixToRange i)) (List.prefix_append _ _)
                    (by simp [keyLE, phaseOrder])
                  refine chunkBound_append (chunkBound_mono hbd ?_) ?_ <;>
                    simp [keyLE, chunkKey, phaseOrder]
                · simp only [if_pos hn]
                  have hpw1 : List.Pairwise chunkLE (output ++ [(⟨i, .PREFIX, b,
                      (p.drop b).take (min size (p.length - b))⟩ : Chunk)]) :=
                    pairwise_append_chunk hpw hbd
                  have hbd1 : ∀ c ∈ output ++ [⟨i, .PREFIX, b,
                      (p.drop b).take (min size (p.length - b))⟩],
                      keyLE (chunkKey c) (i, phaseOrder .RANGE, 0) := by
                    refine chunkBound_append (chunkBound_mono hbd ?_) ?_ <;>
                      simp [keyLE, chunkKey, phaseOrder]
                  have hpost := ih .range i .RANGE 0 _ reads (fun _ => rfl)
                    (fun h => nomatch h) (cursorWF_zero ranges i .RANGE) hpw1 hbd1
                  exact AuxPost_mono hpost (.single (.prefixToRange i))
                    (by simp [keyLE, phaseOrder]) (List.prefix_append _ _)
              · have hoc : ¬(¬True ∨ p.length ≤ b + min size (p.length - b)) :=
                  fun h => h.elim (fun h1 => h1 trivial) hdone
                simp only [if_neg hoc]
                refine AuxPost_record file ranges hwfr i .PREFIX b output i .PREFIX
                  (b + min size (p.length - b)) _ false reads ?_
                  (pairwise_append_chunk hpw hbd) ?_ .refl (List.prefix_append _ _)
                  (by simp [keyLE, phaseOrder])
                · unfold cursorWF
                  rw [hr]
                  change _ ∧ _
                  refine ⟨(fun h => nomatch h), fun p2 hp2 => ?_⟩
                  simp only [getPadding, hpad, Option.some.injEq] at hp2
                  subst hp2
                  omega
                · refine chunkBound_append (chunkBound_mono hbd ?_) ?_ <;>
                    simp [keyLE, chunkKey, phaseOrder]
            · have hpn : ¬(True ∧ 0 < p.length) := fun h => hlen h.2
              have hoc : ¬True ∨ p.length ≤ b := Or.inr (by omega)
              simp only [if_neg hpn, if_pos hoc]
              have hnb : ¬ (0 : Nat) < 0 := by omega
              simp only [if_pos hnb]
              have hpost := ih .range i .RANGE 0 output reads (fun _ => rfl)
                (fun h => nomatch h) (cursorWF_zero ranges i .RANGE) hpw
                (chunkBound_mono hbd (by simp [keyLE, phaseOrder]))
              exact AuxPost_mono hpost (.single (.prefixToRange i))
                (by simp [keyLE, phaseOrder]) (List.prefix_refl _)
      · subst hrs
        cases hr : ranges.get? i with
        | none =>
          simp only [streamAux, hr]
          exact AuxPost_record file ranges hwfr i _ b output i _ b output false reads
            hcw hpw hbd .refl (List.prefix_refl _) (keyLE_refl _)
        | some r =>
          have hwr : r.offset + r.length ≤ file.length := hwfr r (List.get?_mem hr)
          simp only [streamAux, hr, getPadding]
          cases hpad : r.suffixPad with
          | none =>
            simp only [hpad, Option.isSome_none, Option.getD_none, List.length_nil]
            have hnp : ¬((false = true) ∧ 0 < 0) := by simp
            have hoc : ¬(false = true) ∨ (0 : Nat) ≤ b := Or.inl (by simp)
            simp only [if_neg hnp, if_pos hoc]
            have hnb : ¬ (0 : Nat) < 0 := by omega
            simp only [if_pos hnb]
            cases hr2 : ranges.get? (i + 1) with
            | none =>
              exact AuxPost_record file ranges hwfr i .SUFFIX b output (i + 1) .PREFIX 0
                output true reads (cursorWF_zero ranges (i + 1) .PREFIX) hpw
                (chunkBound_mono hbd (by simp [keyLE, phaseOrder] <;> omega))
                (.single (.suffixToNext i)) (List.prefix_refl _)
                (by simp [keyLE, phaseOrder] <;> omega)
            | some r2 =>
              have hpost := ih .padding (i + 1) .PREFIX 0 output reads
                (fun h => nomatch h) (fun _ => Or.inl rfl)
                (cursorWF_zero ranges (i + 1) .PREFIX) hpw
                (chunkBound_mono hbd (by simp [keyLE, phaseOrder] <;> omega))
              exact AuxPost_mono hpost (.single (.suffixToNext i))
                (by simp [keyLE, phaseOrder] <;> omega) (List.prefix_refl _)
          | some p =>
            have hbp : b ≤ p.length := by
              simp only [cursorWF, hr] at hcw
              exact hcw.2 p (by simp [getPadding, hpad])
            simp only [hpad, Option.isSome_some, Option.getD_some]
            by_cases hlen : 0 < p.length
            · have hpn : True ∧ 0 < p.length := ⟨trivial, hlen⟩
              simp only [if_pos hpn]
              by_cases hdone : p.length ≤ b + min size (p.length - b)
              · have hoc : ¬True ∨ p.length ≤ b + min size (p.length - b) :=
                  Or.inr hdone
                simp only [if_pos hoc]
                by_cases hn : 0 < min size (p.length - b)
                · have hnn : ¬ ¬ 0 < min size (p.length - b) := fun h => h hn
                  simp only [if_neg hnn]
                  refine AuxPost_record file ranges hwfr i .SUFFIX b output (i + 1)
                    .PREFIX 0 _ false reads (cursorWF_zero ranges (i + 1) .PREFIX)
                    (pairwise_append_chunk hpw hbd) ?_
                    (.single (.suffixToNext i)) (List.prefix_append _ _)
                    (by simp [keyLE, phaseOrder] <;> omega)
                  refine chunkBound_append (chunkBound_mono hbd ?_) ?_ <;>
                    simp [keyLE, chunkKey, phaseOrder] <;> omega
                · simp only [if_pos hn]
                  have hpw1 : List.Pairwise chunkLE (output ++ [(⟨i, .SUFFIX, b,
                      (p.drop b).take (min size (p.length - b))⟩ : Chunk)]) :=
                    pairwise_append_chunk hpw hbd
                  have hbd1 : ∀ c ∈ output ++ [(⟨i, .SUFFIX, b,
                      (p.drop b).take (min size (p.length - b))⟩ : Chunk)],
                      keyLE (chunkKey c) (i + 1, phaseOrder .PREFIX, 0) := by
                    refine chunkBound_append (chunkBound_mono hbd ?_) ?_ <;>
                      simp [keyLE, chunkKey, phaseOrder] <;> omega
                  cases hr2 : ranges.get? (i + 1) with
                  | none =>
                    exact AuxPost_record file ranges hwfr i .SUFFIX b output (i + 1)
                      .PREFIX 0 _ true reads (cursorWF_zero ranges (i + 1) .PREFIX)
                      hpw1 hbd1 (.single (.suffixToNext i)) (List.prefix_append _ _)
                      (by simp [keyLE, phaseOrder] <;> omega)
                  | some r2 =>
                    have hpost := ih .padding (i + 1) .PREFIX 0 _ reads
                      (fun h => nomatch h) (fun _ => Or.inl rfl)
                      (cursorWF_zero ranges (i + 1) .PREFIX) hpw1 hbd1
                    exact AuxPost_mono hpost (.single (.suffixToNext i))
                      (by simp [keyLE, phaseOrder] <;> omega) (List.prefix_append _ _)
              · have hoc : ¬(¬True ∨ p.length ≤ b + min size (p.length - b)) :=
                  fun h => h.elim (fun h1 => h1 trivial) hdone
                simp only [if_neg hoc]
                refine AuxPost_record file ranges hwfr i .SUFFIX b output i .SUFFIX
                  (b + min size (p.length - b)) _ false reads ?_
                  (pairwise_append_chunk hpw hbd) ?_ .refl (List.prefix_append _ _)
                  (by simp [keyLE, phaseOrder] <;> omega)
                · unfold cursorWF
                  rw [hr]
                  change _ ∧ _
                  refine ⟨(fun h => nomatch h), fun p2 hp2 => ?_⟩
                  simp only [getPadding, hpad, Option.some.injEq] at hp2
                  subst hp2
                  omega
                · refine chunkBound_append (chunkBound_mono hbd ?_) ?_ <;>
                    simp [keyLE, chunkKey, phaseOrder] <;> omega
            · have hpn : ¬(True ∧ 0 < p.length) := fun h => hlen h.2
              have hoc : ¬True ∨ p.length ≤ b := Or.inr (by omega)
              simp only [if_neg hpn, if_pos hoc]
              have hnb : ¬ (0 : Nat) < 0 := by omega
              simp only [if_pos hnb]
              cases hr2 : ranges.get? (i + 1) with
              | none =>
                exact AuxPost_record file ranges hwfr i .SUFFIX b output (i + 1) .PREFIX 0
                  output true reads (cursorWF_zero ranges (i + 1) .PREFIX) hpw
                  (chunkBound_mono hbd (by simp [keyLE, phaseOrder] <;> omega))
                  (.single (.suffixToNext i)) (List.prefix_refl _)
                  (by simp [keyLE, phaseOrder] <;> omega)
              | some r2 =>
                have hpost := ih .padding (i + 1) .PREFIX 0 output reads
                  (fun h => nomatch h) (fun _ => Or.inl rfl)
                  (cursorWF_zero ranges (i + 1) .PREFIX) hpw
                  (chunkBound_mono hbd (by simp [keyLE, phaseOrder] <;> omega))
                exact AuxPost_mono hpost (.single (.suffixToNext i))
                  (by simp [keyLE, phaseOrder] <;> omega) (List.prefix_refl _)

theorem readPull_post (s : StreamState) (size : Nat)
    (hwfr : ∀ r ∈ s.ranges, r.offset + r.length ≤ s.file.length)
    (hsize : 1 ≤ size)
    (hcw : cursorWF s.ranges s.currentRangeIndex s.readState s.bytesRead)
    (hpw : List.Pairwise chunkLE s.output)
    (hbd : ∀ c ∈ s.output, keyLE (chunkKey c) (stateKey s)) :
    AuxPost s.file s.ranges s.currentRangeIndex s.readState s.bytesRead s.output
      (readPull s size) := by
  have hbd2 : ∀ c ∈ s.output,
      keyLE (chunkKey c) (s.currentRangeIndex, phaseOrder s.readState, s.bytesRead) := hbd
  unfold readPull
  by_cases hend : s.ended = true
  · simp only [hend, if_true]
    exact ⟨rfl, rfl, ⟨hwfr, hcw⟩, ⟨hpw, hbd⟩, .refl, List.prefix_refl _, keyLE_refl _⟩
  · simp only [hend, if_false]
    cases hr : s.ranges.get? s.currentRangeIndex with
    | none =>
      exact ⟨rfl, rfl, ⟨hwfr, hcw⟩, ⟨hpw, hbd⟩, .refl, List.prefix_refl _, keyLE_refl _⟩
    | some r =>
      cases hst : s.readState with
      | PREFIX =>
        rw [hst] at hcw hbd2
        exact streamAux_inv s.file s.ranges size hwfr hsize _ .padding _ .PREFIX _ _ _
          (fun h => nomatch h) (fun _ => Or.inl rfl) hcw hpw hbd2
      | SUFFIX =>
        rw [hst] at hcw hbd2
        exact streamAux_inv s.file s.ranges size hwfr hsize _ .padding _ .SUFFIX _ _ _
          (fun h => nomatch h) (fun _ => Or.inr rfl) hcw hpw hbd2
      | RANGE =>
        rw [hst] at hcw hbd2
        exact streamAux_inv s.file s.ranges size hwfr hsize _ .range _ .RANGE _ _ _
          (fun _ => rfl) (fun h => nomatch h) hcw hpw hbd2

theorem runPulls_post (sizes : List Nat) :
    ∀ (s : StreamState),
      (∀ r ∈ s.ranges, r.offset + r.length ≤ s.file.length) →
      (∀ sz ∈ sizes, 1 ≤ sz) →
      cursorWF s.ranges s.currentRangeIndex s.readState s.bytesRead →
      List.Pairwise chunkLE s.output →
      (∀ c ∈ s.output, keyLE (chunkKey c) (stateKey s)) →
      AuxPost s.file s.ranges s.currentRangeIndex s.readState s.bytesRead s.output
        (runPulls s sizes) := by
  induction sizes with
  | nil =>
    intro s hwfr _ hcw hpw hbd
    exact ⟨rfl, rfl, ⟨hwfr, hcw⟩, ⟨hpw, hbd⟩, .refl, List.prefix_refl _, keyLE_refl _⟩
  | cons sz sizes ih =>
    intro s hwfr hall hcw hpw hbd
    have hsz : 1 ≤ sz := hall sz (by simp)
    obtain ⟨hf, hrg, ⟨hwfr2, hcw2⟩, ⟨hpw2, hbd2⟩, hrtg, hpre, hkey⟩ :=
      readPull_post s sz hwfr hsz hcw hpw hbd
    obtain ⟨hf2, hrg2, hwf3, hti3, hrtg2, hpre2, hkey2⟩ :=
      ih (readPull s sz) hwfr2 (fun z hz => hall z (by simp [hz])) hcw2 hpw2 hbd2
    simp only [runPulls]
    exact ⟨hf2.trans hf, hrg2.trans hrg, hwf3, hti3, hrtg.trans hrtg2,
      hpre.trans hpre2, keyLE_trans hkey hkey2⟩

theorem runPulls_append (a b : List Nat) :
    ∀ s : StreamState, runPulls s (a ++ b) = runPulls (runPulls s a) b := by
  induction a with
  | nil => intro s; rfl
  | cons x a ih =>
    intro s
    simp only [List.cons_append, runPulls]
    exact ih _

/-- Sample file bytes for the concrete C6 witness instance. -/
def c6File : List Nat := [10, 20, 30, 40]

/-- Sample range list (with multipart paddings) for the C6 witness. -/
def c6Ranges : List StreamRange :=
  [⟨0, 2, some [65], some [66]⟩, ⟨2, 1, none, none⟩]

/-- C6: throughout the lifetime of a range read stream the cursor
`(currentRangeIndex, readState, bytesRead)` only advances — between any
earlier point (after the pulls `sizes1`) and any later point (after the
further pulls `sizes2`) the cursor key does not decrease, `currentRangeIndex`
never decreases (no prior range is revisited), and the coarse cursor moves
only along `PREFIX → RANGE → SUFFIX → next range's PREFIX`; the chunks
already emitted stay untouched (a prefix of the later trace), the whole
emitted trace is sorted by `(rangeIndex, phase, start)` — so for every range
all prefix bytes precede the body bytes, the body bytes precede the suffix
bytes and are in ascending offset order, and ranges are emitted in strict
range-list order — and the cursor is reachable from the initial
`(0, PREFIX)` by legal phase transitions only. -/
theorem stream_cursor_monotone (file : List Nat) (ranges : List StreamRange)
    (sizes1 sizes2 : List Nat)
    (hwfr : ∀ r ∈ ranges, r.offset + r.length ≤ file.length)
    (h1 : ∀ sz ∈ sizes1, 1 ≤ sz) (h2 : ∀ sz ∈ sizes2, 1 ≤ sz) :
    keyLE (stateKey (runPulls (initState file ranges) sizes1))
        (stateKey (runPulls (initState file ranges) (sizes1 ++ sizes2))) ∧
    (runPulls (initState file ranges) sizes1).currentRangeIndex ≤
        (runPulls (initState file ranges) (sizes1 ++ sizes2)).currentRangeIndex ∧
    Relation.ReflTransGen PhaseStep
        (cursor (runPulls (initState file ranges) sizes1))
        (cursor (runPulls (initState file ranges) (sizes1 ++ sizes2))) ∧
    (runPulls (initState file ranges) sizes1).output <+:
        (runPulls (initState file ranges) (sizes1 ++ sizes2)).output ∧
    List.Pairwise chunkLE (runPulls (initState file ranges) (sizes1 ++ sizes2)).output ∧
    Relation.ReflTransGen PhaseStep (0, .PREFIX)
        (cursor (runPulls (initState file ranges) sizes1)) := by
  obtain ⟨hf1, hrg1, ⟨hw1, hcw1⟩, ⟨hpw1, hbd1⟩, hrtg1, hpre1, hkey1⟩ :=
    runPulls_post sizes1 (initState file ranges) hwfr h1
      (cursorWF_zero ranges 0 .PREFIX) List.Pairwise.nil
      (fun c hc => absurd hc (List.not_mem_nil c))
  rw [runPulls_append sizes1 sizes2]
  obtain ⟨hf2, hrg2, hwf2, ⟨hpw2, hbd2⟩, hrtg2, hpre2, hkey2⟩ :=
    runPulls_post sizes2 (runPulls (initState file ranges) sizes1) hw1 h2 hcw1 hpw1 hbd1
  exact ⟨hkey2, phaseStep_fst_le hrtg2, hrtg2, hpre2, hpw2, hrtg1⟩

theorem stream_cursor_monotone_witness :
    ((∀ r ∈ c6Ranges, r.offset + r.length ≤ c6File.length) ∧
      (∀ sz ∈ [2], 1 ≤ sz) ∧ (∀ sz ∈ [1, 3], 1 ≤ sz)) ∧
    (keyLE (stateKey (runPulls (initState c6File c6Ranges) [2]))
        (stateKey (runPulls (initState c6File c6Ranges) ([2] ++ [1, 3]))) ∧
    (runPulls (initState c6File c6Ranges) [2]).currentRangeIndex ≤
        (runPulls (initState c6File c6Ranges) ([2] ++ [1, 3])).currentRangeIndex ∧
    Relation.ReflTransGen PhaseStep
        (cursor (runPulls (initState c6File c6Ranges) [2]))
        (cursor (runPulls (initState c6File c6Ranges) ([2] ++ [1, 3]))) ∧
    (runPulls (initState c6File c6Ranges) [2]).output <+:
        (runPulls (initState c6File c6Ranges) ([2] ++ [1, 3])).output ∧
    List.Pairwise chunkLE (runPulls (initState c6File c6Ranges) ([2] ++ [1, 3])).output ∧
    Relation.ReflTransGen PhaseStep (0, .PREFIX)
        (cursor (runPulls (initState c6File c6Ranges) [2]))) :=
  ⟨⟨by decide, by decide, by decide⟩,
    stream_cursor_monotone c6File c6Ranges [2] [1, 3]
      (by decide) (by decide) (by decide)⟩

end KoaFiles
